import Mathlib

/-!
Verification of the minicons build-framework core against its specification.

The development shallowly embeds the core of the repository:

* the node model (minicons/__init__.py: Entry, File, Dir, Builder, and the
  spec section 3 FileSet) as a finite graph over natural-number node ids;
* the graph resolver (minicons/execution.py: _traverse_node_graph, _sort_dag);
* the freshness analysis and PreparedBuild (Execution.prepare_build,
  PreparedBuild.get_to_build);
* the serial scheduler loop of Execution.build_targets;
* builder registration (Execution._resolve_builder, Builder.side_effect);
* the metadata store statements (Execution._set_metadata in both
  minicons/execution.py and minicons/__init__.py);
* target-argument resolution (Execution._args_to_nodes).

The while loops of the source are modelled as fuel-indexed step functions
returning none exactly when the fuel runs out; fuel is a modelling artifact
and adequacy of the canonical fuel values is proved separately, so a result
of the form some r corresponds to a terminating run of the Python code.

Python sets are modelled as duplicate-free lists; the iteration order of a
Python set is implementation defined (string hashing is randomized), and this
embedding fixes insertion order as one admissible iteration order.
-/

/-- Python set.add modelled on lists: append the element if it is absent. -/
def pyInsert (l : List Nat) (x : Nat) : List Nat :=
  if x ∈ l then l else l ++ [x]

/-- Python set.update: insert the elements of xs in order. -/
def pyInsertAll (l : List Nat) (xs : List Nat) : List Nat :=
  xs.foldl pyInsert l

/-- The Python set built by inserting the elements of l in order
(used to model set(xs) where xs is a list). -/
def pyDedup (l : List Nat) : List Nat := pyInsertAll [] l

/-- The Python exceptions raised by the embedded code paths. -/
inductive PyErr where
  | keyError : PyErr
  | typeError : String → PyErr
  | valueError : String → PyErr
  | dependencyError : String → PyErr
  | operationalError : String → PyErr
deriving DecidableEq

/-- A metadata signature: the dict mapping the absolute path of each
dependency (paths are identified with entry node ids, since the entries
interning map keeps them in bijection) to that dependency on-disk metadata
blob (abstracted as an opaque number). -/
abbrev Sig := List (Nat × Nat)

/-- The static build graph together with the state of the filesystem.

Nodes are identified with natural numbers, as are builders.  The fields
mirror the object graph of the source: Node.depends and Node.builder
(minicons/__init__.py lines 509-531 define them for Entry; FileSet nodes,
which have no static path, are the nodes with isEntry = false, following
spec section 3), Builder.depends and Builder.builds
(minicons/__init__.py lines 601-612), and the per-entry filesystem facts
used by Execution.prepare_build: path.exists() and get_metadata().

Modelled from the spec: the File/Dir get_metadata signature functions live in
minicons/entry.py which is not under src/; following spec sections 3 and 4.4
(the freshness analysis computes a signature for every reachable entry and
completes even when a buildable output does not exist yet), get_metadata is
modelled as a total function metadataOf returning an opaque signature blob.
nodeStr models str(node) (the path of an entry relative to the execution
root, minicons/__init__.py lines 533-537). -/
structure BGraph where
  univ : List Nat
  depends : Nat → List Nat
  builder : Nat → Option Nat
  builderDeps : Nat → List Nat
  builds : Nat → List Nat
  isEntry : Nat → Bool
  pathExists : Nat → Bool
  metadataOf : Nat → Nat
  nodeStr : Nat → String

/-- The effective out-edges of a node, as collected by _traverse_node_graph
(execution.py lines 485-498): the Python set built from the node own depends,
then its builder depends, then the depends of every sibling output of the
builder. -/
def effDeps (g : BGraph) (n : Nat) : List Nat :=
  pyDedup (g.depends n ++
    (match g.builder n with
     | none => []
     | some b => g.builderDeps b ++ (g.builds b).flatMap g.depends))

/-- One dependency edge of the graph, with the source confined to the
declared node universe. -/
def edgeRel (g : BGraph) (m d : Nat) : Prop := m ∈ g.univ ∧ d ∈ effDeps g m

/-- The dependency graph has no cycle. -/
def AcyclicG (g : BGraph) : Prop := ¬ ∃ n, Relation.TransGen (edgeRel g) n n

/-- The nodes reachable from the target set by following effective
dependency edges, as traversed by _traverse_node_graph. -/
inductive Reaches (g : BGraph) (targets : List Nat) : Nat → Prop where
  | target {n : Nat} : n ∈ targets → Reaches g targets n
  | step {m d : Nat} : Reaches g targets m → d ∈ effDeps g m → Reaches g targets d

/-- Well-formedness of the declared graph: every effective dependency of a
declared node is itself declared. -/
abbrev GraphWF (g : BGraph) : Prop :=
  ∀ n ∈ g.univ, ∀ d ∈ effDeps g n, d ∈ g.univ

/-- Every declared entry without a builder exists on disk (the side
condition of claim C1). -/
abbrev NoBuilderEntriesExist (g : BGraph) : Prop :=
  ∀ e ∈ g.univ, g.isEntry e = true → g.builder e = none → g.pathExists e = true

/-- State of the _traverse_node_graph while loop (execution.py lines
475-504).  toVisit holds the Python stack with its top (the list end, since
list.pop pops the end) at the head; reach accumulates reachable_entries in
append order; seen is the visited set; eds is the edges defaultdict as a
total function defaulting to the empty list. -/
structure TState where
  reach : List Nat
  seen : List Nat
  toVisit : List Nat
  eds : Nat → List Nat

/-- One iteration of the _traverse_node_graph loop body for popped node v:
record it as reachable and seen, append its effective dependencies to
edges[v], and push the dependencies not yet seen (in iteration order, so the
last pushed ends on top of the stack). -/
def traverseStep (g : BGraph) (s : TState) (v : Nat) (rest : List Nat) : TState :=
  let seen1 := pyInsert s.seen v
  let deps := effDeps g v
  { reach := s.reach ++ [v]
    seen := seen1
    toVisit := (deps.filter (fun d => decide (d ∉ seen1))).reverse ++ rest
    eds := Function.update s.eds v (s.eds v ++ deps) }

/-- The fueled _traverse_node_graph while loop: pop the stack top and run
the loop body until the stack is empty; none signals fuel exhaustion. -/
def traverseLoop (g : BGraph) : Nat → TState → Option TState
  | 0, s => match s.toVisit with
    | [] => some s
    | _ :: _ => none
  | fuel + 1, s => match s.toVisit with
    | [] => some s
    | v :: rest => traverseLoop g fuel (traverseStep g s v rest)

/-- An upper bound on the number of dependencies pushed by one loop
iteration. -/
def maxDepsWidth (g : BGraph) : Nat :=
  (g.univ.map (fun n => (effDeps g n).length)).foldl max 0

/-- Canonical fuel for the traversal loop; proved sufficient for
well-formed graphs. -/
def traverseFuel (g : BGraph) (targets : List Nat) : Nat :=
  (maxDepsWidth g + 2) * g.univ.length + targets.length + 1

/-- Embedding of _traverse_node_graph (execution.py lines 468-504): returns
the list of reachable nodes (with multiplicity, in visit order) and the
edges mapping. -/
def traverse_node_graph (g : BGraph) (targets : List Nat) :
    Option (List Nat × (Nat → List Nat)) :=
  (traverseLoop g (traverseFuel g targets)
      { reach := [], seen := [], toVisit := targets.reverse, eds := fun _ => [] }).map
    (fun s => (s.reach, s.eds))

/-- State of the _sort_dag Kahn loop (execution.py lines 507-546).
leafNodes holds the Python stack with its top at the head; sortedNodes is in
append order; eds and rev are the mutable edges and reverse_edges dicts of
deduplicated dependency sets, as total functions. -/
structure KState where
  sortedNodes : List Nat
  leafNodes : List Nat
  eds : Nat → List Nat
  rev : Nat → List Nat

/-- The inner loop of _sort_dag for the popped leaf (execution.py lines
534-538): for each m in the snapshot of reverse_edges[node], remove the
m/node pairing from both dicts and promote m to the leaf stack when its
dependency set empties. -/
def kInner (node : Nat) : KState → List Nat → KState
  | s, [] => s
  | s, m :: ms =>
    let eds1 := Function.update s.eds m ((s.eds m).erase node)
    let s1 : KState :=
      { s with
        rev := Function.update s.rev node ((s.rev node).erase m)
        eds := eds1 }
    let s2 : KState :=
      if eds1 m = [] then { s1 with leafNodes := m :: s1.leafNodes } else s1
    kInner node s2 ms

/-- The fueled _sort_dag while loop: pop a leaf, append it to the sorted
output, and process its reverse dependencies. -/
def kLoop : Nat → KState → Option KState
  | 0, s => match s.leafNodes with
    | [] => some s
    | _ :: _ => none
  | fuel + 1, s => match s.leafNodes with
    | [] => some s
    | node :: rest =>
      kLoop fuel
        (kInner node
          { s with leafNodes := rest, sortedNodes := s.sortedNodes ++ [node] }
          (s.rev node))

/-- The keys of the edges dict passed to _sort_dag: the nodes that received
at least one edge, in first-visit order. -/
def kKeys (nodes : List Nat) (edgesOrig : Nat → List Nat) : List Nat :=
  (pyDedup nodes).filter (fun m => !(edgesOrig m).isEmpty)

/-- The initial reverse_edges dict of _sort_dag: m is a reverse dependency
of d when the deduplicated dependency set of m contains d, listed in key
insertion order. -/
def kRev0 (nodes : List Nat) (edgesOrig : Nat → List Nat) : Nat → List Nat :=
  fun d => (kKeys nodes edgesOrig).filter (fun m => d ∈ pyDedup (edgesOrig m))

/-- Total number of edges currently recorded for the given keys. -/
def kTotalEdges (keys : List Nat) (eds : Nat → List Nat) : Nat :=
  (keys.map (fun m => (eds m).length)).sum

/-- The edges remaining in the dict after the Kahn loop, as source/target
pairs in dict iteration order (the data of the cycle error message). -/
def kRemaining (keys : List Nat) (eds : Nat → List Nat) : List (Nat × Nat) :=
  keys.flatMap (fun m => (eds m).map (fun d => (m, d)))

/-- Canonical fuel for the Kahn loop; proved sufficient. -/
def sortFuel (nodes : List Nat) (edgesOrig : Nat → List Nat) : Nat :=
  nodes.length + 2 * kTotalEdges (kKeys nodes edgesOrig) (fun m => pyDedup (edgesOrig m)) + 1

/-- The initial state of the Kahn loop: leaves are the input nodes with no
dependencies, popped from the end of the Python list. -/
def kInit (nodes : List Nat) (edgesOrig : Nat → List Nat) : KState :=
  { sortedNodes := []
    leafNodes := (nodes.filter (fun n => (edgesOrig n).isEmpty)).reverse
    eds := fun m => pyDedup (edgesOrig m)
    rev := kRev0 nodes edgesOrig }

/-- Embedding of _sort_dag (execution.py lines 507-546): either the
topologically sorted node list, or the list of remaining source/target edge
pairs reported in the cycle error. -/
def sort_dag (nodes : List Nat) (edgesOrig : Nat → List Nat) :
    Option (Except (List (Nat × Nat)) (List Nat)) :=
  (kLoop (sortFuel nodes edgesOrig) (kInit nodes edgesOrig)).map
    (fun s =>
      match kRemaining (kKeys nodes edgesOrig) s.eds with
      | [] => Except.ok s.sortedNodes
      | p :: ps => Except.error (p :: ps))

/-- One line of the cycle error message: a source/target pair rendered as in
the f-string of execution.py line 542. -/
def pairLine (toStr : Nat → String) (p : Nat × Nat) : String :=
  toStr p.1 ++ " → " ++ toStr p.2

/-- The lines joined into the cycle error message body. -/
def cycleMessageLines (toStr : Nat → String) (pairs : List (Nat × Nat)) : List String :=
  pairs.map (pairLine toStr)

/-- The full DependencyError message of execution.py line 544: the header
followed by one line per remaining offending edge. -/
def cycleMessage (toStr : Nat → String) (pairs : List (Nat × Nat)) : String :=
  "Dependency graph has cycles:\n" ++ String.intercalate "\n" (cycleMessageLines toStr pairs)

/-- An edge of the graph handed to _sort_dag (source confined to the input
node list). -/
def SEdge (nodes : List Nat) (edgesOrig : Nat → List Nat) (m d : Nat) : Prop :=
  m ∈ nodes ∧ d ∈ edgesOrig m

/-- The node list l is topologically ordered for the given dependency
edges: every occurrence of a dependency comes strictly before every
occurrence of a node that depends on it. -/
abbrev IsTopoOrder (l : List Nat) (edges : Nat → List Nat) : Prop :=
  ∀ j : Fin l.length, ∀ d ∈ edges (l.get j), ∀ i : Fin l.length,
    l.get i = d → i.val < j.val

/-- The ancestor-closure walk of Execution.prepare_build (execution.py lines
211-219): pop a node from the stack, record it when it is an entry, and push
all its edges (there is no visited set, so the walk terminates only on
acyclic inputs; fuel models this). -/
def depsWalk (g : BGraph) (eds : Nat → List Nat) :
    Nat → List Nat → List Nat → Option (List Nat)
  | 0, acc, stack => match stack with
    | [] => some acc
    | _ :: _ => none
  | fuel + 1, acc, stack => match stack with
    | [] => some acc
    | v :: rest =>
      depsWalk g eds fuel (if g.isEntry v then pyInsert acc v else acc)
        ((eds v).reverse ++ rest)

/-- all_dependencies[node]: the entry ancestors of a node, computed by the
walk started on the edges of the node. -/
def allDepsOf (g : BGraph) (eds : Nat → List Nat) (fD : Nat) (node : Nat) :
    Option (List Nat) :=
  depsWalk g eds fD [] ((eds node).reverse)

/-- The all_dependencies dict of prepare_build (execution.py lines 211-219),
built node by node over the all_nodes list. -/
def allDepsList (g : BGraph) (eds : Nat → List Nat) (fD : Nat) :
    List Nat → Option (List (Nat × List Nat))
  | [] => some []
  | n :: ns =>
    match allDepsOf g eds fD n, allDepsList g eds fD ns with
    | some d, some r => some ((n, d) :: r)
    | _, _ => none

/-- The PreparedBuild record (execution.py lines 37-45), with node ids in
place of node objects and dict fields as functions. -/
structure PreparedBuildM where
  ordered_nodes : List Nat
  buildable_entries : List Nat
  edges : Nat → List Nat
  out_of_date : List Nat
  changed : List Nat
  entry_dependencies : Nat → List Nat
  targets : List Nat

/-- Python dict.get on an association list with distinct keys. -/
def pyDictLookup (s : Sig) (k : Nat) : Option Nat :=
  (s.find? (fun p => p.fst == k)).map Prod.snd

/-- Python dict equality (key sets coincide and values agree), for the
signature dicts compared by prepare_build. -/
def pyDictEq (a b : Sig) : Bool :=
  a.all (fun p => pyDictLookup b p.fst == some p.snd) &&
    b.all (fun p => (pyDictLookup a p.fst).isSome)

/-- The comparison old_metadata != new_metadata of execution.py line 245
(old is None when the store has no row, and None compares unequal to any
dict). -/
def pyOptDictNe (old : Option Sig) (new : Sig) : Bool :=
  match old with
  | none => true
  | some o => ! pyDictEq o new

/-- Execution._metadata_signature (execution.py lines 460-465): the dict
from the path of each dependency to its gathered metadata; none models the
KeyError raised when a dependency is missing from the metadata dict. -/
def metadata_signature (md : Nat → Option Nat) : List Nat → Option Sig
  | [] => some []
  | e :: es =>
    match md e, metadata_signature md es with
    | some v, some s => some ((e, v) :: s)
    | _, _ => none

/-- The changed-set update of execution.py lines 247-252: when the node is
outdated, add every ancestor dependency whose per-path entry differs between
the stored and the current signature. -/
def changedUpdates (old : Option Sig) (new : Sig) (deps : List Nat)
    (changed : List Nat) : List Nat :=
  match old with
  | none => changed
  | some o =>
    deps.foldl
      (fun ch dep =>
        if pyDictLookup o dep ≠ pyDictLookup new dep then pyInsert ch dep else ch)
      changed

/-- The body of the freshness loop of prepare_build (execution.py lines
235-252) for one node, threading the outdated and changed sets. -/
def freshnessStep (g : BGraph) (db : Nat → Option Sig) (md : Nat → Option Nat)
    (allDeps : Nat → List Nat) (st : List Nat × List Nat) (node : Nat) :
    Except PyErr (List Nat × List Nat) :=
  if g.isEntry node = true ∧ (g.builder node).isSome then
    if g.pathExists node = false then Except.ok (pyInsert st.1 node, st.2)
    else
      match metadata_signature md (allDeps node) with
      | none => Except.error PyErr.keyError
      | some newMd =>
        if pyOptDictNe (db node) newMd then
          Except.ok (pyInsert st.1 node, changedUpdates (db node) newMd (allDeps node) st.2)
        else Except.ok st
  else Except.ok st

/-- The metadata lookup function prepare_build hands to the freshness loop:
entries in the reachable entry set have their gathered metadata, everything
else raises KeyError (modelled as none) inside _metadata_signature. -/
def pbMd (g : BGraph) (entryNodes : List Nat) : Nat → Option Nat :=
  fun e => if e ∈ entryNodes then some (g.metadataOf e) else none

/-- The freshness phase of prepare_build (execution.py lines 222-264): run
the outdated/changed loop over all nodes and assemble the PreparedBuild. -/
def pbFreshness (g : BGraph) (db : Nat → Option Sig) (md : Nat → Option Nat)
    (allDeps : Nat → List Nat) (allNodes ordered : List Nat)
    (eds : Nat → List Nat) (targetNodes : List Nat) :
    Option (Except PyErr PreparedBuildM) :=
  match allNodes.foldlM (freshnessStep g db md allDeps) ([], []) with
  | Except.error e => some (Except.error e)
  | Except.ok (outdated, changed) =>
    some (Except.ok
      { ordered_nodes := ordered
        buildable_entries :=
          pyDedup (ordered.filter (fun e => g.isEntry e && (g.builder e).isSome))
        edges := eds
        out_of_date := outdated
        changed := changed
        entry_dependencies := allDeps
        targets := targetNodes })

/-- The missing-input check of prepare_build (execution.py lines 222-233):
raise on a reachable entry that has no builder and is absent from disk,
then run the freshness phase with the dict lookup for entry ancestors. -/
def pbCheckMissing (g : BGraph) (db : Nat → Option Sig)
    (targetNodes allNodes : List Nat) (eds : Nat → List Nat)
    (ordered entryNodes : List Nat) (adList : List (Nat × List Nat)) :
    Option (Except PyErr PreparedBuildM) :=
  match entryNodes.find? (fun e => (g.builder e).isNone && ! g.pathExists e) with
  | some e =>
    some (Except.error (PyErr.dependencyError
      ("Path " ++ g.nodeStr e ++
        " required but not present on filesystem and no builder defined")))
  | none =>
    pbFreshness g db (pbMd g entryNodes)
      (fun n => ((adList.find? (fun p => p.fst == n)).map Prod.snd).getD [])
      allNodes ordered eds targetNodes

/-- The ancestor-closure phase of prepare_build (execution.py lines
211-219): build the all_dependencies dict and continue with the
missing-input check. -/
def pbWithDeps (fD : Nat) (g : BGraph) (db : Nat → Option Sig)
    (targetNodes allNodes : List Nat) (eds : Nat → List Nat)
    (ordered entryNodes : List Nat) : Option (Except PyErr PreparedBuildM) :=
  match allDepsList g eds fD allNodes with
  | none => none
  | some adList =>
    pbCheckMissing g db targetNodes allNodes eds ordered entryNodes adList

/-- The sorting phase of prepare_build (execution.py lines 196-209): run the
topological sort, raising DependencyError with the cycle message on a
cyclic graph. -/
def pbSorted (fD : Nat) (g : BGraph) (db : Nat → Option Sig)
    (targetNodes allNodes : List Nat) (eds : Nat → List Nat) :
    Option (Except PyErr PreparedBuildM) :=
  match sort_dag allNodes eds with
  | none => none
  | some (Except.error pairs) =>
    some (Except.error (PyErr.dependencyError (cycleMessage g.nodeStr pairs)))
  | some (Except.ok ordered) =>
    pbWithDeps fD g db targetNodes allNodes eds ordered
      (pyDedup (allNodes.filter (fun n => g.isEntry n)))

/-- Embedding of Execution.prepare_build (execution.py lines 185-264) on a
resolved list of target nodes, staged through the phase functions above.
db is the metadata store keyed by entry path.  fD is the fuel of the
ancestor-closure walk (the only loop of prepare_build that does not
terminate on all inputs); the traversal and the topological sort run on
their canonical, provably sufficient fuel.  The result is none exactly when
some fuel ran out. -/
def prepare_build (fD : Nat) (g : BGraph) (db : Nat → Option Sig)
    (targetNodes : List Nat) : Option (Except PyErr PreparedBuildM) :=
  match traverse_node_graph g targetNodes with
  | none => none
  | some (allNodes, eds) => pbSorted fD g db targetNodes allNodes eds

/-- prepare_build raises a DependencyError on these inputs, for every walk
fuel (the error paths of prepare_build never consume the walk fuel). -/
def PrepareBuildRaisesDep (g : BGraph) (db : Nat → Option Sig)
    (targetNodes : List Nat) : Prop :=
  ∀ fD, ∃ msg, prepare_build fD g db targetNodes =
    some (Except.error (PyErr.dependencyError msg))

/-- prepare_build completes without raising and every returned PreparedBuild
lists the given node as out of date. -/
def PrepareBuildMarksOutdated (g : BGraph) (db : Nat → Option Sig)
    (targetNodes : List Nat) (e : Nat) : Prop :=
  (∃ fD pb, prepare_build fD g db targetNodes = some (Except.ok pb) ∧
      e ∈ pb.out_of_date) ∧
    ∀ fD r, prepare_build fD g db targetNodes = some r →
      ∃ pb, r = Except.ok pb ∧ e ∈ pb.out_of_date

/-- The downward pass of PreparedBuild.get_to_build (execution.py lines
62-65): in topological order, add every node one of whose dependencies is
already in the set. -/
def downward_pass (ordered : List Nat) (edges : Nat → List Nat)
    (init : List Nat) : List Nat :=
  ordered.foldl
    (fun tb node =>
      if (edges node).any (fun d => decide (d ∈ tb)) then pyInsert tb node else tb)
    init

/-- The upward pass of PreparedBuild.get_to_build (execution.py lines
75-77): in reverse topological order, add the non-entry dependencies of
every node already in the set. -/
def upward_pass (ordered : List Nat) (edges : Nat → List Nat)
    (isEntry : Nat → Bool) (tb0 : List Nat) : List Nat :=
  ordered.reverse.foldl
    (fun tb node =>
      if node ∈ tb then pyInsertAll tb ((edges node).filter (fun d => ! isEntry d))
      else tb)
    tb0

/-- Embedding of PreparedBuild.get_to_build (execution.py lines 47-79).
The entry test isinstance(d, Entry) is supplied by the graph predicate. -/
def get_to_build (pb : PreparedBuildM) (isEntry : Nat → Bool) : List Nat :=
  upward_pass pb.ordered_nodes pb.edges isEntry
    (downward_pass pb.ordered_nodes pb.edges pb.out_of_date)

/-- The serial scheduler loop of Execution.build_targets (execution.py lines
311-325), returning the trace of builder invocations in order.  The state
is the built_nodes set paired with the trace; the filesystem effects of
_call_builder and the metadata commit are outside the scope of the claims
about invocation counts. -/
def serial_build (g : BGraph) (ordered : List Nat) (toBuild : List Nat) : List Nat :=
  (ordered.foldl
      (fun (st : List Nat × List Nat) node =>
        match g.builder node with
        | none => st
        | some b =>
          if node ∈ toBuild ∧ node ∉ st.1 then (pyInsertAll st.1 (g.builds b), st.2 ++ [b])
          else st)
      ([], [])).2

/-- Execution.build_targets in serial mode on resolved targets: prepare the
build and, when preparation succeeds, run the serial loop; the result is the
builder invocation trace (empty when preparation raises, since build_targets
invokes no builder before prepare_build returns). -/
def build_targets_serial (fD : Nat) (g : BGraph) (db : Nat → Option Sig)
    (targetNodes : List Nat) : Option (Except PyErr (List Nat)) :=
  match prepare_build fD g db targetNodes with
  | none => none
  | some (Except.error e) => some (Except.error e)
  | some (Except.ok pb) =>
    some (Except.ok (serial_build g pb.ordered_nodes (get_to_build pb g.isEntry)))

/-- The runtime kind of an object handed to builder registration, for the
isinstance tests of _resolve_builder (minicons/__init__.py lines 120-151):
a File, a Dir, or not an Entry at all. -/
inductive EKind where
  | file : EKind
  | dir : EKind
  | notEntry : EKind
deriving DecidableEq

/-- The environment of the registration model: the runtime kind of every
object id that can appear in a get_targets result or a side_effect call. -/
structure RegEnv where
  kind : Nat → EKind

/-- The value returned by Builder.get_targets as scrutinised by
_resolve_builder: either a bare Entry (not wrapped in a list) or a list. -/
inductive TargetsDecl where
  | singleEntry : Nat → TargetsDecl
  | many : List Nat → TargetsDecl

/-- One builder-registration call: Execution._resolve_builder on a builder
with the given get_targets result, or Builder.side_effect with the given
entries. -/
inductive RegOp where
  | resolve : Nat → TargetsDecl → RegOp
  | sideEffect : Nat → List Nat → RegOp

/-- The mutable registration state: Entry.builder for every node,
Builder.builds for every builder, and the Execution.builders memo of
resolved builders. -/
structure RegState where
  builderOf : Nat → Option Nat
  builds : Nat → List Nat
  resolved : Nat → Option (List Nat)

/-- The initial registration state: no builder bound, nothing built. -/
def regInit : RegState :=
  { builderOf := fun _ => none, builds := fun _ => [], resolved := fun _ => none }

/-- The registration loop of _resolve_builder (minicons/__init__.py lines
143-149): process the target entries in order, raising (and keeping the
partial mutations made so far) on a non-Entry target or on an entry already
owned by a different builder; otherwise bind the entry and append it to
builds, with no duplicate check. -/
def resolveLoop (env : RegEnv) (b : Nat) : RegState → List Nat → RegState × Option PyErr
  | st, [] => (st, none)
  | st, e :: es =>
    if env.kind e = EKind.notEntry then
      (st, some (PyErr.typeError "Builder get_target() must return Files or Dirs"))
    else
      match st.builderOf e with
      | some b0 =>
        if b0 ≠ b then (st, some (PyErr.valueError "already being built"))
        else
          resolveLoop env b
            { st with
              builderOf := Function.update st.builderOf e (some b)
              builds := Function.update st.builds b (st.builds b ++ [e]) } es
      | none =>
        resolveLoop env b
          { st with
            builderOf := Function.update st.builderOf e (some b)
            builds := Function.update st.builds b (st.builds b ++ [e]) } es

/-- The side_effect loop of Builder.side_effect (minicons/__init__.py lines
624-630): same binding step, no memoisation, no kind check. -/
def sideEffectLoop (env : RegEnv) (b : Nat) : RegState → List Nat → RegState × Option PyErr
  | st, [] => (st, none)
  | st, e :: es =>
    match st.builderOf e with
    | some b0 =>
      if b0 ≠ b then (st, some (PyErr.valueError "already being built"))
      else
        sideEffectLoop env b
          { st with
            builderOf := Function.update st.builderOf e (some b)
            builds := Function.update st.builds b (st.builds b ++ [e]) } es
    | none =>
      sideEffectLoop env b
        { st with
          builderOf := Function.update st.builderOf e (some b)
          builds := Function.update st.builds b (st.builds b ++ [e]) } es

/-- Apply one registration call to the state, returning the state at
completion (or at the point the call raised; exceptions leave the partial
mutations in place, as in Python). -/
def applyRegOp (env : RegEnv) (st : RegState) : RegOp → RegState
  | RegOp.resolve b decl =>
    match st.resolved b with
    | some _ => st
    | none =>
      let entries : List Nat :=
        match decl with
        | TargetsDecl.singleEntry _ => []
        | TargetsDecl.many l => l
      if (entries.any (fun e => env.kind e = EKind.dir)) ∧ entries.length ≠ 1 then st
      else
        match resolveLoop env b st entries with
        | (st1, none) => { st1 with resolved := Function.update st1.resolved b (some entries) }
        | (st1, some _) => st1
  | RegOp.sideEffect b es => (sideEffectLoop env b st es).1

/-- Apply a sequence of registration calls from the given state. -/
def applyRegOps (env : RegEnv) (st : RegState) (ops : List RegOp) : RegState :=
  ops.foldl (applyRegOp env) st

/-- A metadata store table: rows of (path, serialized metadata), one row per
path. -/
abbrev Store := List (String × String)

/-- The INSERT OR REPLACE INTO file_metadata statement issued by
Execution._set_metadata in minicons/execution.py lines 141-148: a valid
SQLite upsert replacing any existing row for the path. -/
def insert_or_replace (store : Store) (path meta : String) : Except PyErr Store :=
  Except.ok ((store.filter (fun r => decide (r.1 ≠ path))) ++ [(path, meta)])

/-- Modelled from the spec: the sqlite3 engine is external to the
repository.  Per the documented SQLite conflict-clause grammar (INSERT OR
ROLLBACK / ABORT / FAIL / IGNORE / REPLACE) the statement INSERT OR UPDATE
INTO file_metadata issued by Execution._set_metadata in
minicons/__init__.py lines 111-118 is a syntax error, so sqlite3 raises
OperationalError on every call, whatever the store contents; spec section 9
notes this evident bug. -/
def insert_or_update (_store : Store) (_path _meta : String) : Except PyErr Store :=
  Except.error (PyErr.operationalError "near \"UPDATE\": syntax error")

/-- The SELECT metadata FROM file_metadata WHERE path=? lookup of
Execution._get_metadata. -/
def select_metadata (store : Store) (path : String) : Option String :=
  (store.find? (fun r => r.1 == path)).map Prod.snd

/-- Execution._set_metadata of minicons/execution.py: put(path, signature)
through INSERT OR REPLACE. -/
def execution_set_metadata (store : Store) (path meta : String) : Except PyErr Store :=
  insert_or_replace store path meta

/-- Execution._set_metadata of minicons/__init__.py: put(path, signature)
through the malformed INSERT OR UPDATE. -/
def init_set_metadata (store : Store) (path meta : String) : Except PyErr Store :=
  insert_or_update store path meta

/-- A target argument handed to Execution.build_targets or prepare_build:
a Path, a Node, or a string (the iterable and SourceLike cases of
_args_to_nodes recurse into these three and are orthogonal to the claims). -/
inductive TargetArg where
  | pathArg : Nat → TargetArg
  | nodeArg : Nat → TargetArg
  | strArg : String → TargetArg

/-- The execution state consulted by _args_to_nodes: the alias table, the
entries interning map from path ids to entry node ids, and the path id of
root.joinpath(s) for a string s. -/
structure ExecutionEnv where
  aliases : String → Option (List Nat)
  entries : Nat → Option Nat
  rootJoin : String → Nat

/-- Embedding of Execution._args_to_nodes (minicons/execution.py lines
150-175) on a single argument: a Path is looked up in the entries dict (a
missing key raises KeyError, line 160), a Node is yielded as is, and a
string is first tried as an alias and otherwise looked up as a path
relative to the root (line 168, again a bare dict subscript). -/
def args_to_nodes (env : ExecutionEnv) : TargetArg → Except PyErr (List Nat)
  | TargetArg.pathArg p =>
    match env.entries p with
    | some n => Except.ok [n]
    | none => Except.error PyErr.keyError
  | TargetArg.nodeArg n => Except.ok [n]
  | TargetArg.strArg s =>
    match env.aliases s with
    | some ns => Except.ok ns
    | none =>
      match env.entries (env.rootJoin s) with
      | some n => Except.ok [n]
      | none => Except.error PyErr.keyError

/-- prepare_build on an unresolved target argument: resolve it with
_args_to_nodes first (execution.py line 191); a raised exception
propagates. -/
def prepare_build_from_args (fD : Nat) (g : BGraph) (db : Nat → Option Sig)
    (env : ExecutionEnv) (arg : TargetArg) : Option (Except PyErr PreparedBuildM) :=
  match args_to_nodes env arg with
  | Except.error e => some (Except.error e)
  | Except.ok ts => prepare_build fD g db ts

/-- The reachable subgraph of the target set contains a dependency cycle. -/
def HasReachableCycle (g : BGraph) (targets : List Nat) : Prop :=
  ∃ n, Reaches g targets n ∧ Relation.TransGen (edgeRel g) n n

/-- Loop invariant of the traversal: everything seen or pending is declared
and reachable, seen matches the reachable accumulator, edges are recorded
exactly for seen nodes, dependencies of seen nodes are seen or pending, and
(the stack invariant) a pending node that is already seen has every
dependency either seen or strictly above it on the stack. -/
structure TInv (g : BGraph) (targets : List Nat) (s : TState) : Prop where
  seen_univ : ∀ x ∈ s.seen, x ∈ g.univ
  visit_univ : ∀ x ∈ s.toVisit, x ∈ g.univ
  seen_iff_reach : ∀ x, x ∈ s.seen ↔ x ∈ s.reach
  reaches_seen : ∀ x ∈ s.seen, Reaches g targets x
  reaches_visit : ∀ x ∈ s.toVisit, Reaches g targets x
  targets_cov : ∀ x ∈ targets, x ∈ s.seen ∨ x ∈ s.toVisit
  closed_edges : ∀ x ∈ s.seen, ∀ d ∈ effDeps g x, d ∈ s.seen ∨ d ∈ s.toVisit
  eds_unseen : ∀ x, x ∉ s.seen → s.eds x = []
  eds_mem : ∀ x ∈ s.seen, ∀ y, y ∈ s.eds x ↔ y ∈ effDeps g x
  stack_seen : ∀ l1 x l2, s.toVisit = l1 ++ x :: l2 → x ∈ s.seen →
    ∀ d ∈ effDeps g x, d ∈ s.seen ∨ d ∈ l1

/-- Termination measure of the traversal loop. -/
def tMeasure (g : BGraph) (s : TState) : Nat :=
  (maxDepsWidth g + 2) * (g.univ.filter (fun x => decide (x ∉ s.seen))).length +
    s.toVisit.length

/-- Loop invariant of the Kahn sort at loop boundaries: the edges and
reverse-edges dicts pair up, edge sets only shrink from their initial
deduplicated value, stack and output members have empty edge sets, sorted
nodes have been cleared from the reverse dict, a removed edge means its
target was already emitted, a node with an empty edge set is on the stack or
already emitted, and every emitted node follows all of its dependencies. -/
structure KInv (nodes : List Nat) (edgesOrig : Nat → List Nat) (s : KState) : Prop where
  pairing : ∀ d m, m ∈ s.rev d ↔ (m ∈ kKeys nodes edgesOrig ∧ d ∈ s.eds m)
  eds_sub : ∀ m, s.eds m ⊆ pyDedup (edgesOrig m)
  eds_nodup : ∀ m, (s.eds m).Nodup
  rev_nodup : ∀ d, (s.rev d).Nodup
  leaf_eds : ∀ n ∈ s.leafNodes, s.eds n = []
  sorted_eds : ∀ n ∈ s.sortedNodes, s.eds n = []
  sorted_rev : ∀ d ∈ s.sortedNodes, s.rev d = []
  removed_sorted : ∀ m ∈ kKeys nodes edgesOrig, ∀ d ∈ pyDedup (edgesOrig m),
    d ∉ s.eds m → d ∈ s.sortedNodes
  empty_leaf_sorted : ∀ d ∈ nodes, s.eds d = [] → d ∈ s.leafNodes ∨ d ∈ s.sortedNodes
  topo : ∀ l1 m l2, s.sortedNodes = l1 ++ m :: l2 → ∀ d ∈ pyDedup (edgesOrig m), d ∈ l1
  sorted_nodes : ∀ n ∈ s.sortedNodes, n ∈ nodes
  leaf_nodes_mem : ∀ n ∈ s.leafNodes, n ∈ nodes

/-- The invariant holding while the inner loop clears the reverse
dependencies of the node just emitted: as KInv, except that the reverse list
of that node still holds the pending part of the snapshot. -/
structure KMid (nodes : List Nat) (edgesOrig : Nat → List Nat) (node : Nat)
    (s : KState) : Prop where
  pairing : ∀ d m, m ∈ s.rev d ↔ (m ∈ kKeys nodes edgesOrig ∧ d ∈ s.eds m)
  eds_sub : ∀ m, s.eds m ⊆ pyDedup (edgesOrig m)
  eds_nodup : ∀ m, (s.eds m).Nodup
  rev_nodup : ∀ d, (s.rev d).Nodup
  leaf_eds : ∀ n ∈ s.leafNodes, s.eds n = []
  sorted_eds : ∀ n ∈ s.sortedNodes, s.eds n = []
  sorted_rev : ∀ d ∈ s.sortedNodes, d ≠ node → s.rev d = []
  removed_sorted : ∀ m ∈ kKeys nodes edgesOrig, ∀ d ∈ pyDedup (edgesOrig m),
    d ∉ s.eds m → d ∈ s.sortedNodes
  empty_leaf_sorted : ∀ d ∈ nodes, s.eds d = [] → d ∈ s.leafNodes ∨ d ∈ s.sortedNodes
  topo : ∀ l1 m l2, s.sortedNodes = l1 ++ m :: l2 → ∀ d ∈ pyDedup (edgesOrig m), d ∈ l1
  sorted_nodes : ∀ n ∈ s.sortedNodes, n ∈ nodes
  leaf_nodes_mem : ∀ n ∈ s.leafNodes, n ∈ nodes
  node_sorted : node ∈ s.sortedNodes

/-- Termination measure of the Kahn loop. -/
def kMeasure (keys : List Nat) (s : KState) : Nat :=
  s.leafNodes.length + 2 * kTotalEdges keys s.eds

/-- The duplicate-freeness invariant of the Kahn loop, available when the
input node list has no duplicates. -/
structure KInvN (s : KState) : Prop where
  nodup_sl : (s.sortedNodes ++ s.leafNodes).Nodup

/-- The empty metadata store. -/
def dbEmpty : Nat → Option Sig := fun _ => none

/-- Counterexample graph for claim C10: an acyclic diamond in which node 1
is pushed twice before being visited (targets [0]; 0 depends on 1 and 2, 2
depends on 1). -/
def gC10 : BGraph :=
  { univ := [0, 1, 2]
    depends := fun n => if n = 0 then [1, 2] else if n = 2 then [1] else []
    builder := fun _ => none
    builderDeps := fun _ => []
    builds := fun _ => []
    isEntry := fun _ => true
    pathExists := fun _ => true
    metadataOf := fun _ => 0
    nodeStr := fun _ => "" }

/-- The all_nodes and ordered_nodes lists produced for the C10
counterexample graph. -/
def gC10Run : Option (List Nat × List Nat) :=
  match traverse_node_graph gC10 [0] with
  | none => none
  | some (allNodes, eds) =>
    match sort_dag allNodes eds with
    | some (Except.ok ordered) => some (allNodes, ordered)
    | _ => none

/-- Counterexample graph for claim C1: entry 0 has a builder and a missing
path, the only no-builder entry 1 exists on disk, and the two entries
depend on each other, so prepare_build raises the cycle error before the
freshness analysis. -/
def gC1x : BGraph :=
  { univ := [0, 1]
    depends := fun n => if n = 0 then [1] else if n = 1 then [0] else []
    builder := fun n => if n = 0 then some 0 else none
    builderDeps := fun _ => []
    builds := fun b => if b = 0 then [0] else []
    isEntry := fun _ => true
    pathExists := fun n => n != 0
    metadataOf := fun _ => 0
    nodeStr := fun n => if n = 0 then "out" else "src" }

/-- Witness graph for the amended claim C1: as gC1x but acyclic (the source
entry 1 has no dependencies). -/
def gW1 : BGraph :=
  { univ := [0, 1]
    depends := fun n => if n = 0 then [1] else []
    builder := fun n => if n = 0 then some 0 else none
    builderDeps := fun _ => []
    builds := fun b => if b = 0 then [0] else []
    isEntry := fun _ => true
    pathExists := fun n => n != 0
    metadataOf := fun _ => 0
    nodeStr := fun n => if n = 0 then "out" else "src" }

/-- Witness graph for claim C3: two existing entries depending on each
other. -/
def gC3w : BGraph :=
  { univ := [0, 1]
    depends := fun n => if n = 0 then [1] else if n = 1 then [0] else []
    builder := fun _ => none
    builderDeps := fun _ => []
    builds := fun _ => []
    isEntry := fun _ => true
    pathExists := fun _ => true
    metadataOf := fun _ => 0
    nodeStr := fun n => if n = 0 then "X" else "Y" }

/-- Witness graph for claims C5 and C6: builder 0 outputs the siblings 0 and
3; node 0 depends on 1, the builder depends on 2, and sibling 3 depends on
2. -/
def gW5 : BGraph :=
  { univ := [0, 1, 2, 3]
    depends := fun n => if n = 0 then [1] else if n = 3 then [2] else []
    builder := fun n => if n = 0 ∨ n = 3 then some 0 else none
    builderDeps := fun b => if b = 0 then [2] else []
    builds := fun b => if b = 0 then [0, 3] else []
    isEntry := fun _ => true
    pathExists := fun _ => true
    metadataOf := fun _ => 0
    nodeStr := fun _ => "" }

/-- Witness node list and edge map for claim C2 (a small acyclic graph). -/
def nodesW2 : List Nat := [0, 1, 2]

/-- Witness edges for claim C2. -/
def edgesW2 : Nat → List Nat :=
  fun n => if n = 0 then [1, 2] else if n = 2 then [1] else []

/-- Witness PreparedBuild for claim C4. -/
def pbW4 : PreparedBuildM :=
  { ordered_nodes := [1, 2, 0]
    buildable_entries := []
    edges := fun n => if n = 0 then [1, 2] else if n = 2 then [1] else []
    out_of_date := [1]
    changed := []
    entry_dependencies := fun _ => []
    targets := [0] }

/-- Entry predicate for the C4 witness: node 2 is a FileSet. -/
def ieW4 : Nat → Bool := fun n => n != 2

/-- Registration environment in which every object is a File. -/
def envAllFiles : RegEnv := { kind := fun _ => EKind.file }

/-- Execution state for claim C8: no aliases and no interned entries. -/
def envC8 : ExecutionEnv :=
  { aliases := fun _ => none, entries := fun _ => none, rootJoin := fun _ => 0 }

/-! Basic lemmas about the Python set model. -/

theorem pyInsert_of_mem {l : List Nat} {x : Nat} (h : x ∈ l) : pyInsert l x = l := by
  simp [pyInsert, h]

theorem mem_pyInsert {l : List Nat} {x y : Nat} : y ∈ pyInsert l x ↔ y ∈ l ∨ y = x := by
  unfold pyInsert
  by_cases h : x ∈ l
  · rw [if_pos h]
    constructor
    · exact fun hy => Or.inl hy
    · rintro (hy | rfl)
      · exact hy
      · exact h
  · rw [if_neg h]
    simp [List.mem_append]

theorem subset_pyInsert (l : List Nat) (x : Nat) : l ⊆ pyInsert l x :=
  fun _ hy => mem_pyInsert.mpr (Or.inl hy)

theorem pyInsert_nodup {l : List Nat} {x : Nat} (h : l.Nodup) : (pyInsert l x).Nodup := by
  unfold pyInsert
  by_cases hx : x ∈ l
  · rw [if_pos hx]; exact h
  · rw [if_neg hx]
    refine List.Nodup.append h (List.nodup_singleton x) ?_
    intro a ha hax
    exact hx ((List.mem_singleton.mp hax) ▸ ha)

theorem mem_pyInsertAll {xs l : List Nat} {y : Nat} :
    y ∈ pyInsertAll l xs ↔ y ∈ l ∨ y ∈ xs := by
  induction xs generalizing l with
  | nil => simp [pyInsertAll]
  | cons x xs ih =>
    show y ∈ pyInsertAll (pyInsert l x) xs ↔ _
    rw [ih, mem_pyInsert]
    simp [or_assoc, or_comm, or_left_comm]

theorem subset_pyInsertAll (l xs : List Nat) : l ⊆ pyInsertAll l xs :=
  fun _ hy => mem_pyInsertAll.mpr (Or.inl hy)

theorem pyInsertAll_nodup {l xs : List Nat} (h : l.Nodup) : (pyInsertAll l xs).Nodup := by
  induction xs generalizing l with
  | nil => exact h
  | cons x xs ih => exact ih (pyInsert_nodup h)

theorem mem_pyDedup {l : List Nat} {y : Nat} : y ∈ pyDedup l ↔ y ∈ l := by
  unfold pyDedup
  rw [mem_pyInsertAll]
  simp

theorem pyDedup_nodup (l : List Nat) : (pyDedup l).Nodup :=
  pyInsertAll_nodup List.nodup_nil

theorem pyDedup_eq_nil {l : List Nat} : pyDedup l = [] ↔ l = [] := by
  constructor
  · intro h
    cases l with
    | nil => rfl
    | cons x xs =>
      exfalso
      have : x ∈ pyDedup (x :: xs) := mem_pyDedup.mpr (List.mem_cons_self x xs)
      rw [h] at this
      exact (List.not_mem_nil x) this
  · rintro rfl; rfl

/-! Lemmas about the traversal measure ingredients. -/

theorem le_foldl_max (l : List Nat) (a x : Nat) (hx : x ∈ l ∨ x ≤ a) :
    x ≤ l.foldl max a := by
  induction l generalizing a with
  | nil =>
    rcases hx with h | h
    · exact absurd h (List.not_mem_nil x)
    · exact h
  | cons b l ih =>
    rcases hx with h | h
    · rcases List.mem_cons.mp h with rfl | h
      · exact ih (max a x) (Or.inr (le_max_right a x))
      · exact ih (max a b) (Or.inl h)
    · exact ih (max a b) (Or.inr (h.trans (le_max_left a b)))

theorem effDeps_length_le {g : BGraph} {v : Nat} (hv : v ∈ g.univ) :
    (effDeps g v).length ≤ maxDepsWidth g := by
  unfold maxDepsWidth
  have hmem : (effDeps g v).length ∈ g.univ.map (fun n => (effDeps g n).length) :=
    List.mem_map.mpr ⟨v, hv, rfl⟩
  exact le_foldl_max _ 0 _ (Or.inl hmem)

theorem filter_length_mono {l : List Nat} {p q : Nat → Bool} (h : ∀ a, p a → q a) :
    (l.filter p).length ≤ (l.filter q).length :=
  (List.monotone_filter_right l h).length_le

theorem filter_not_insert_length {l seen : List Nat} {v : Nat} (hvl : v ∈ l)
    (hvs : v ∉ seen) :
    (l.filter (fun x => decide (x ∉ pyInsert seen v))).length <
      (l.filter (fun x => decide (x ∉ seen))).length := by
  have hmono : ∀ a : Nat, (fun x => decide (x ∉ pyInsert seen v)) a = true →
      (fun x => decide (x ∉ seen)) a = true := by
    intro a ha
    have ha' : a ∉ pyInsert seen v := of_decide_eq_true ha
    exact decide_eq_true (fun hs => ha' (subset_pyInsert seen v hs))
  induction l with
  | nil => cases hvl
  | cons a l ih =>
    simp only [List.filter_cons, decide_eq_true_eq]
    by_cases hav : a = v
    · subst hav
      rw [if_neg (not_not_intro (mem_pyInsert.mpr (Or.inr rfl))), if_pos hvs]
      simp only [List.length_cons]
      exact Nat.lt_succ_of_le (filter_length_mono hmono)
    · have hvl' : v ∈ l := by
        rcases List.mem_cons.mp hvl with h | h
        · exact absurd h.symm hav
        · exact h
      have hrec := ih hvl'
      by_cases h1 : a ∈ pyInsert seen v
      · rw [if_neg (not_not_intro h1)]
        by_cases h2 : a ∈ seen
        · rw [if_neg (not_not_intro h2)]
          exact hrec
        · rw [if_pos h2]
          simp only [List.length_cons]
          omega
      · have h2 : a ∉ seen := fun hs => h1 (subset_pyInsert _ _ hs)
        rw [if_pos h1, if_pos h2]
        simp only [List.length_cons]
        omega

/-! Correctness of the traversal loop. -/

theorem tInv_init {g : BGraph} {targets : List Nat} (hts : ∀ x ∈ targets, x ∈ g.univ) :
    TInv g targets { reach := [], seen := [], toVisit := targets.reverse, eds := fun _ => [] } := by
  refine ⟨?_, ?_, ?_, ?_, ?_, ?_, ?_, ?_, ?_, ?_⟩
  · intro x hx; cases hx
  · intro x hx; exact hts x (List.mem_reverse.mp hx)
  · intro x; simp
  · intro x hx; cases hx
  · intro x hx; exact Reaches.target (List.mem_reverse.mp hx)
  · intro x hx; exact Or.inr (List.mem_reverse.mpr hx)
  · intro x hx; cases hx
  · intro x _; rfl
  · intro x hx; cases hx
  · intro l1 x l2 _ hmem; cases hmem

theorem mem_traverse_pushed {g : BGraph} {seen : List Nat} {v x : Nat} :
    x ∈ (effDeps g v).filter (fun d => decide (d ∉ pyInsert seen v)) ↔
      x ∈ effDeps g v ∧ x ∉ pyInsert seen v := by
  rw [List.mem_filter]
  simp

theorem tInv_step {g : BGraph} {targets : List Nat} {s : TState} {v : Nat}
    {rest : List Nat} (hwf : GraphWF g) (hinv : TInv g targets s)
    (hs : s.toVisit = v :: rest) : TInv g targets (traverseStep g s v rest) := by
  obtain ⟨re, se, tv, ed⟩ := s
  simp only at hs
  subst hs
  have hv_univ : v ∈ g.univ := hinv.visit_univ v (List.mem_cons_self v rest)
  have hv_reach : Reaches g targets v := hinv.reaches_visit v (List.mem_cons_self v rest)
  refine ⟨?_, ?_, ?_, ?_, ?_, ?_, ?_, ?_, ?_, ?_⟩
  · -- seen_univ
    intro x hx
    rcases mem_pyInsert.mp hx with hx | rfl
    · exact hinv.seen_univ x hx
    · exact hv_univ
  · -- visit_univ
    intro x hx
    rcases List.mem_append.mp hx with hx | hx
    · have := mem_traverse_pushed.mp (List.mem_reverse.mp hx)
      exact hwf v hv_univ x this.1
    · exact hinv.visit_univ x (List.mem_cons_of_mem v hx)
  · -- seen_iff_reach
    intro x
    show x ∈ pyInsert se v ↔ x ∈ re ++ [v]
    rw [mem_pyInsert, List.mem_append, List.mem_singleton, hinv.seen_iff_reach x]
  · -- reaches_seen
    intro x hx
    rcases mem_pyInsert.mp hx with hx | rfl
    · exact hinv.reaches_seen x hx
    · exact hv_reach
  · -- reaches_visit
    intro x hx
    rcases List.mem_append.mp hx with hx | hx
    · have := mem_traverse_pushed.mp (List.mem_reverse.mp hx)
      exact Reaches.step hv_reach this.1
    · exact hinv.reaches_visit x (List.mem_cons_of_mem v hx)
  · -- targets_cov
    intro x hx
    rcases hinv.targets_cov x hx with hx2 | hx2
    · exact Or.inl (subset_pyInsert _ _ hx2)
    · rcases List.mem_cons.mp hx2 with rfl | hx2
      · exact Or.inl (mem_pyInsert.mpr (Or.inr rfl))
      · exact Or.inr (List.mem_append.mpr (Or.inr hx2))
  · -- closed_edges
    intro x hx d hd
    rcases mem_pyInsert.mp hx with hx2 | rfl
    · rcases hinv.closed_edges x hx2 d hd with hd2 | hd2
      · exact Or.inl (subset_pyInsert _ _ hd2)
      · rcases List.mem_cons.mp hd2 with rfl | hd2
        · exact Or.inl (mem_pyInsert.mpr (Or.inr rfl))
        · exact Or.inr (List.mem_append.mpr (Or.inr hd2))
    · by_cases hds : d ∈ pyInsert se x
      · exact Or.inl hds
      · refine Or.inr (List.mem_append.mpr (Or.inl ?_))
        exact List.mem_reverse.mpr (mem_traverse_pushed.mpr ⟨hd, hds⟩)
  · -- eds_unseen
    intro x hx
    have hxv : x ≠ v := fun h => hx (h ▸ mem_pyInsert.mpr (Or.inr rfl))
    have hxo : x ∉ se := fun h => hx (subset_pyInsert _ _ h)
    show Function.update ed v (ed v ++ effDeps g v) x = []
    rw [Function.update_noteq hxv]
    exact hinv.eds_unseen x hxo
  · -- eds_mem
    intro x hx y
    show y ∈ Function.update ed v (ed v ++ effDeps g v) x ↔ _
    by_cases hxv : x = v
    · subst hxv
      rw [Function.update_same, List.mem_append]
      by_cases hxo : x ∈ se
      · have hiff : y ∈ ed x ↔ y ∈ effDeps g x := hinv.eds_mem x hxo y
        rw [hiff]
        exact or_self_iff
      · have hed : ed x = [] := hinv.eds_unseen x hxo
        rw [hed]
        simp
    · rw [Function.update_noteq hxv]
      rcases mem_pyInsert.mp hx with hx2 | hx2
      · exact hinv.eds_mem x hx2 y
      · exact absurd hx2 hxv
  · -- stack_seen
    intro l1 x l2 heq hmem d hd
    have heq2 : ((effDeps g v).filter (fun w => decide (w ∉ pyInsert se v))).reverse ++ rest =
        l1 ++ x :: l2 := heq
    have hprl1 : ∀ y ∈ ((effDeps g v).filter (fun w => decide (w ∉ pyInsert se v))).reverse,
        y ∉ pyInsert se v := by
      intro y hy
      exact (mem_traverse_pushed.mp (List.mem_reverse.mp hy)).2
    rcases List.append_eq_append_iff.mp heq2 with ⟨w, hl1, hrest⟩ | ⟨w, hpr, hxl2⟩
    · -- the occurrence of x is in the old part of the stack: rest = w ++ x :: l2
      by_cases hxv : x = v
      · subst hxv
        by_cases hds : d ∈ pyInsert se x
        · exact Or.inl hds
        · refine Or.inr ?_
          rw [hl1]
          refine List.mem_append.mpr (Or.inl ?_)
          exact List.mem_reverse.mpr (mem_traverse_pushed.mpr ⟨hd, hds⟩)
      · have hxse : x ∈ se := by
          rcases mem_pyInsert.mp hmem with h | h
          · exact h
          · exact absurd h hxv
        have hold := hinv.stack_seen (v :: w) x l2 (by rw [hrest]; rfl) hxse d hd
        rcases hold with h | h
        · exact Or.inl (subset_pyInsert _ _ h)
        · rcases List.mem_cons.mp h with rfl | h
          · exact Or.inl (mem_pyInsert.mpr (Or.inr rfl))
          · refine Or.inr ?_
            rw [hl1]
            exact List.mem_append.mpr (Or.inr h)
    · -- x :: l2 = w ++ rest with pr = l1 ++ w
      cases w with
      | nil =>
        -- rest = x :: l2 and l1 is the whole pushed block
        have hrest : rest = x :: l2 := by simpa using hxl2.symm
        by_cases hxv : x = v
        · subst hxv
          by_cases hds : d ∈ pyInsert se x
          · exact Or.inl hds
          · refine Or.inr ?_
            have hl1 : l1 = ((effDeps g x).filter (fun w => decide (w ∉ pyInsert se x))).reverse := by
              simpa using hpr.symm
            rw [hl1]
            exact List.mem_reverse.mpr (mem_traverse_pushed.mpr ⟨hd, hds⟩)
        · have hxse : x ∈ se := by
            rcases mem_pyInsert.mp hmem with h | h
            · exact h
            · exact absurd h hxv
          have hold := hinv.stack_seen [v] x l2 (by rw [hrest]; rfl) hxse d hd
          rcases hold with h | h
          · exact Or.inl (subset_pyInsert _ _ h)
          · rcases List.mem_singleton.mp h with rfl
            exact Or.inl (mem_pyInsert.mpr (Or.inr rfl))
      | cons y w2 =>
        -- x is one of the freshly pushed nodes: contradiction with x seen
        exfalso
        have hxy : x = y := by
          have := hxl2
          simp only [List.cons_append] at this
          exact (List.cons_eq_cons.mp this).1
        have hyp : y ∈ ((effDeps g v).filter (fun w => decide (w ∉ pyInsert se v))).reverse := by
          rw [hpr]
          exact List.mem_append.mpr (Or.inr (List.mem_cons_self y w2))
        exact hprl1 y hyp (hxy ▸ hmem)

theorem tMeasure_step {g : BGraph} {targets : List Nat} {s : TState} {v : Nat}
    {rest : List Nat} (hinv : TInv g targets s) (hs : s.toVisit = v :: rest) :
    tMeasure g (traverseStep g s v rest) < tMeasure g s := by
  obtain ⟨re, se, tv, ed⟩ := s
  simp only at hs
  subst hs
  have hv_univ : v ∈ g.univ := hinv.visit_univ v (List.mem_cons_self v rest)
  by_cases hvs : v ∈ se
  · -- a revisit pushes nothing: every dependency is already seen
    have hseen1 : pyInsert se v = se := pyInsert_of_mem hvs
    have hpush : (effDeps g v).filter (fun w => decide (w ∉ pyInsert se v)) = [] := by
      rw [List.filter_eq_nil_iff]
      intro d hd
      rcases hinv.stack_seen [] v rest rfl hvs d hd with h | h
      · rw [hseen1]
        simp [h]
      · cases h
    show (maxDepsWidth g + 2) *
          (g.univ.filter (fun x => decide (x ∉ pyInsert se v))).length +
          (((effDeps g v).filter (fun w => decide (w ∉ pyInsert se v))).reverse ++ rest).length <
        (maxDepsWidth g + 2) * (g.univ.filter (fun x => decide (x ∉ se))).length +
          (v :: rest).length
    rw [hpush, hseen1]
    simp only [List.reverse_nil, List.nil_append, List.length_cons]
    omega
  · -- a first visit consumes one unseen node
    have hcnt := filter_not_insert_length (l := g.univ) hv_univ hvs
    have hw : ((effDeps g v).filter (fun w => decide (w ∉ pyInsert se v))).length ≤
        maxDepsWidth g :=
      le_trans (List.length_filter_le _ _) (effDeps_length_le hv_univ)
    show (maxDepsWidth g + 2) *
          (g.univ.filter (fun x => decide (x ∉ pyInsert se v))).length +
          (((effDeps g v).filter (fun w => decide (w ∉ pyInsert se v))).reverse ++ rest).length <
        (maxDepsWidth g + 2) * (g.univ.filter (fun x => decide (x ∉ se))).length +
          (v :: rest).length
    simp only [List.length_append, List.length_reverse, List.length_cons]
    have h3 : (maxDepsWidth g + 2) *
          (g.univ.filter (fun x => decide (x ∉ pyInsert se v))).length + (maxDepsWidth g + 2) ≤
        (maxDepsWidth g + 2) * (g.univ.filter (fun x => decide (x ∉ se))).length := by
      calc (maxDepsWidth g + 2) *
            (g.univ.filter (fun x => decide (x ∉ pyInsert se v))).length + (maxDepsWidth g + 2)
          = (maxDepsWidth g + 2) *
            ((g.univ.filter (fun x => decide (x ∉ pyInsert se v))).length + 1) := by ring
        _ ≤ (maxDepsWidth g + 2) * (g.univ.filter (fun x => decide (x ∉ se))).length :=
            Nat.mul_le_mul_left _ hcnt
    omega

theorem traverseLoop_run {g : BGraph} {targets : List Nat} (hwf : GraphWF g) :
    ∀ f s, TInv g targets s → tMeasure g s < f →
      ∃ s2, traverseLoop g f s = some s2 ∧ TInv g targets s2 ∧ s2.toVisit = [] := by
  intro f
  induction f with
  | zero => intro s _ hm; exact absurd hm (Nat.not_lt_zero _)
  | succ f ih =>
    intro s hinv hm
    cases hv : s.toVisit with
    | nil =>
      refine ⟨s, ?_, hinv, hv⟩
      show traverseLoop g (f + 1) s = some s
      unfold traverseLoop
      rw [hv]
    | cons v rest =>
      have hm2 : tMeasure g (traverseStep g s v rest) < f := by
        have := tMeasure_step hinv hv
        omega
      obtain ⟨s2, hrun, hi2, he⟩ := ih (traverseStep g s v rest) (tInv_step hwf hinv hv) hm2
      refine ⟨s2, ?_, hi2, he⟩
      show traverseLoop g (f + 1) s = some s2
      unfold traverseLoop
      rw [hv]
      exact hrun

theorem traverse_node_graph_spec {g : BGraph} {targets : List Nat}
    (hwf : GraphWF g) (hts : ∀ x ∈ targets, x ∈ g.univ) :
    ∃ allNodes eds, traverse_node_graph g targets = some (allNodes, eds) ∧
      (∀ n, n ∈ allNodes ↔ Reaches g targets n) ∧
      (∀ n, n ∈ allNodes → ∀ y, y ∈ eds n ↔ y ∈ effDeps g n) ∧
      (∀ n, n ∉ allNodes → eds n = []) ∧
      (∀ n ∈ allNodes, n ∈ g.univ) := by
  have hm0 : tMeasure g (TState.mk [] [] targets.reverse (fun _ => [])) <
      traverseFuel g targets := by
    show (maxDepsWidth g + 2) *
        (g.univ.filter (fun x => decide (x ∉ ([] : List Nat)))).length +
        targets.reverse.length < (maxDepsWidth g + 2) * g.univ.length + targets.length + 1
    have h1 : (g.univ.filter (fun x => decide (x ∉ ([] : List Nat)))).length =
        g.univ.length := by simp
    rw [h1, List.length_reverse]
    omega
  obtain ⟨s2, hrun, hinv, hvempty⟩ :=
    @traverseLoop_run g targets hwf (traverseFuel g targets) _ (tInv_init hts) hm0
  have hseen_reach : ∀ n, n ∈ s2.seen ↔ Reaches g targets n := by
    intro n
    constructor
    · exact hinv.reaches_seen n
    · intro hr
      induction hr with
      | target h =>
        rcases hinv.targets_cov _ h with h2 | h2
        · exact h2
        · rw [hvempty] at h2; cases h2
      | step _ hd ih =>
        rcases hinv.closed_edges _ ih _ hd with h2 | h2
        · exact h2
        · rw [hvempty] at h2; cases h2
  refine ⟨s2.reach, s2.eds, ?_, ?_, ?_, ?_, ?_⟩
  · unfold traverse_node_graph
    rw [hrun]
    rfl
  · intro n
    rw [← hinv.seen_iff_reach n]
    exact hseen_reach n
  · intro n hn y
    exact hinv.eds_mem n ((hinv.seen_iff_reach n).mpr hn) y
  · intro n hn
    exact hinv.eds_unseen n (fun h => hn ((hinv.seen_iff_reach n).mp h))
  · intro n hn
    exact hinv.seen_univ n ((hinv.seen_iff_reach n).mpr hn)

/-! Correctness of the Kahn topological sort loop. -/

theorem mem_kKeys {nodes : List Nat} {edgesOrig : Nat → List Nat} {m : Nat} :
    m ∈ kKeys nodes edgesOrig ↔ m ∈ nodes ∧ edgesOrig m ≠ [] := by
  unfold kKeys
  rw [List.mem_filter, mem_pyDedup]
  constructor
  · rintro ⟨h1, h2⟩
    refine ⟨h1, ?_⟩
    intro he
    rw [he] at h2
    simp at h2
  · rintro ⟨h1, h2⟩
    refine ⟨h1, ?_⟩
    simp [List.isEmpty_iff, h2]

theorem kKeys_nodup (nodes : List Nat) (edgesOrig : Nat → List Nat) :
    (kKeys nodes edgesOrig).Nodup :=
  (pyDedup_nodup nodes).filter _

theorem kInv_init (nodes : List Nat) (edgesOrig : Nat → List Nat) :
    KInv nodes edgesOrig (kInit nodes edgesOrig) := by
  refine ⟨?_, ?_, ?_, ?_, ?_, ?_, ?_, ?_, ?_, ?_, ?_, ?_⟩
  · -- pairing
    intro d m
    show m ∈ (kKeys nodes edgesOrig).filter (fun m => d ∈ pyDedup (edgesOrig m)) ↔ _
    rw [List.mem_filter]
    simp only [decide_eq_true_eq]
    exact Iff.rfl
  · intro m; exact fun x hx => hx
  · intro m; exact pyDedup_nodup _
  · intro d; exact ((kKeys_nodup nodes edgesOrig).filter _)
  · -- leaf_eds
    intro n hn
    have hn2 := List.mem_reverse.mp hn
    have := (List.mem_filter.mp hn2).2
    have he : edgesOrig n = [] := by
      rcases List.isEmpty_iff.mp (by simpa using this) with h
      exact h
    show pyDedup (edgesOrig n) = []
    rw [he]
    rfl
  · intro n hn; cases hn
  · intro d hd; cases hd
  · intro m _ d hd hnd; exact absurd hd hnd
  · -- empty_leaf_sorted
    intro d hd he
    refine Or.inl ?_
    show d ∈ (nodes.filter (fun n => (edgesOrig n).isEmpty)).reverse
    rw [List.mem_reverse, List.mem_filter]
    refine ⟨hd, ?_⟩
    have : edgesOrig d = [] := pyDedup_eq_nil.mp he
    simp [this]
  · intro l1 m l2 h; cases l1 <;> cases h
  · intro n hn; cases hn
  · -- leaf_nodes_mem
    intro n hn
    exact (List.mem_filter.mp (List.mem_reverse.mp hn)).1

theorem kTotalEdges_update {keys : List Nat} {eds : Nat → List Nat} {m : Nat}
    {l : List Nat} (hnd : keys.Nodup) (hm : m ∈ keys) :
    kTotalEdges keys (Function.update eds m l) + (eds m).length =
      kTotalEdges keys eds + l.length := by
  induction keys with
  | nil => cases hm
  | cons a ks ih =>
    rw [List.nodup_cons] at hnd
    unfold kTotalEdges at ih ⊢
    simp only [List.map_cons, List.sum_cons]
    rcases List.mem_cons.mp hm with rfl | hm2
    · have hks : (ks.map (fun x => ((Function.update eds m l) x).length)).sum =
          (ks.map (fun x => (eds x).length)).sum := by
        congr 1
        apply List.map_congr_left
        intro x hx
        have hxa : x ≠ m := fun h => hnd.1 (h ▸ hx)
        rw [Function.update_noteq hxa]
      rw [Function.update_same, hks]
      omega
    · have hma : m ≠ a := fun h => hnd.1 (h ▸ hm2)
      rw [Function.update_noteq (Ne.symm hma)]
      have := ih hnd.2 hm2
      omega

theorem kInner_spec {nodes : List Nat} {edgesOrig : Nat → List Nat} {node : Nat} :
    ∀ ms s, KMid nodes edgesOrig node s → s.rev node = ms →
      KMid nodes edgesOrig node (kInner node s ms) ∧
      (kInner node s ms).rev node = [] ∧
      (kInner node s ms).sortedNodes = s.sortedNodes ∧
      kMeasure (kKeys nodes edgesOrig) (kInner node s ms) + ms.length ≤
        kMeasure (kKeys nodes edgesOrig) s ∧
      (∀ x ∈ s.leafNodes, x ∈ (kInner node s ms).leafNodes) ∧
      ((s.sortedNodes ++ s.leafNodes).Nodup →
        ((kInner node s ms).sortedNodes ++ (kInner node s ms).leafNodes).Nodup) := by
  intro ms
  induction ms with
  | nil =>
    intro s hmid hrev
    refine ⟨hmid, hrev, rfl, ?_, fun x hx => hx, fun h => h⟩
    show kMeasure (kKeys nodes edgesOrig) s + ([] : List Nat).length ≤
      kMeasure (kKeys nodes edgesOrig) s
    simp
  | cons m ms2 ih =>
    intro s hmid hrev
    have hmrev : m ∈ s.rev node := by rw [hrev]; exact List.mem_cons_self m ms2
    have hpair := (hmid.pairing node m).mp hmrev
    have hmkeys : m ∈ kKeys nodes edgesOrig := hpair.1
    have hnodeeds : node ∈ s.eds m := hpair.2
    set eds2 : Nat → List Nat := Function.update s.eds m ((s.eds m).erase node) with heds2
    set rev2 : Nat → List Nat :=
      Function.update s.rev node ((s.rev node).erase m) with hrev2
    have heds2m : eds2 m = (s.eds m).erase node := by rw [heds2]; exact Function.update_same ..
    have heds2o : ∀ x, x ≠ m → eds2 x = s.eds x := by
      intro x hx; rw [heds2]; exact Function.update_noteq hx ..
    have hrev2node : rev2 node = ms2 := by
      rw [hrev2, Function.update_same, hrev, List.erase_cons_head]
    have hrev2o : ∀ d, d ≠ node → rev2 d = s.rev d := by
      intro d hd; rw [hrev2]; exact Function.update_noteq hd ..
    have hpairing2 : ∀ d m2, m2 ∈ rev2 d ↔ (m2 ∈ kKeys nodes edgesOrig ∧ d ∈ eds2 m2) := by
      intro d m2
      by_cases hdn : d = node
      · subst hdn
        by_cases hm2 : m2 = m
        · subst hm2
          rw [hrev2, Function.update_same, heds2m]
          constructor
          · intro h
            exact absurd rfl ((hmid.rev_nodup d).mem_erase_iff.mp h).1
          · rintro ⟨_, h⟩
            exact absurd rfl ((hmid.eds_nodup m2).mem_erase_iff.mp h).1
        · rw [hrev2, Function.update_same, (hmid.rev_nodup d).mem_erase_iff,
            heds2o m2 hm2]
          constructor
          · rintro ⟨_, h⟩
            exact (hmid.pairing d m2).mp h
          · intro h
            exact ⟨hm2, (hmid.pairing d m2).mpr h⟩
      · rw [hrev2o d hdn]
        by_cases hm2 : m2 = m
        · subst hm2
          rw [heds2m, (hmid.eds_nodup m2).mem_erase_iff]
          constructor
          · intro h
            exact ⟨((hmid.pairing d m2).mp h).1, hdn, ((hmid.pairing d m2).mp h).2⟩
          · rintro ⟨h1, _, h2⟩
            exact (hmid.pairing d m2).mpr ⟨h1, h2⟩
        · rw [heds2o m2 hm2]
          exact hmid.pairing d m2
    have heds_sub : ∀ x, eds2 x ⊆ pyDedup (edgesOrig x) := by
      intro x
      by_cases hx : x = m
      · subst hx
        rw [heds2m]
        exact fun y hy => hmid.eds_sub x (List.erase_subset _ _ hy)
      · rw [heds2o x hx]
        exact hmid.eds_sub x
    have heds_nodup : ∀ x, (eds2 x).Nodup := by
      intro x
      by_cases hx : x = m
      · subst hx; rw [heds2m]; exact (hmid.eds_nodup x).erase node
      · rw [heds2o x hx]; exact hmid.eds_nodup x
    have hrev_nodup : ∀ d, (rev2 d).Nodup := by
      intro d
      by_cases hd : d = node
      · subst hd; rw [hrev2, Function.update_same]; exact (hmid.rev_nodup d).erase m
      · rw [hrev2o d hd]; exact hmid.rev_nodup d
    have hsorted_eds : ∀ x ∈ s.sortedNodes, eds2 x = [] := by
      intro x hx
      have hold := hmid.sorted_eds x hx
      by_cases hxm : x = m
      · subst hxm; rw [hold] at hnodeeds; cases hnodeeds
      · rw [heds2o x hxm]; exact hold
    have hsorted_rev : ∀ d ∈ s.sortedNodes, d ≠ node → rev2 d = [] := by
      intro d hd hdn
      rw [hrev2o d hdn]
      exact hmid.sorted_rev d hd hdn
    have hrem : ∀ m2 ∈ kKeys nodes edgesOrig, ∀ d ∈ pyDedup (edgesOrig m2),
        d ∉ eds2 m2 → d ∈ s.sortedNodes := by
      intro m2 hm2 d hd hnd
      by_cases hm2m : m2 = m
      · subst hm2m
        rw [heds2m, (hmid.eds_nodup m2).mem_erase_iff] at hnd
        push_neg at hnd
        by_cases hdn : d = node
        · subst hdn; exact hmid.node_sorted
        · exact hmid.removed_sorted m2 hm2 d hd (hnd hdn)
      · rw [heds2o m2 hm2m] at hnd
        exact hmid.removed_sorted m2 hm2 d hd hnd
    have hm_nodes : m ∈ nodes := (mem_kKeys.mp hmkeys).1
    have hLpos : 0 < (s.eds m).length := List.length_pos_of_mem hnodeeds
    have hlen_eds : ((s.eds m).erase node).length + 1 = (s.eds m).length := by
      rw [List.length_erase_of_mem hnodeeds]
      omega
    have htot : kTotalEdges (kKeys nodes edgesOrig) eds2 + 1 =
        kTotalEdges (kKeys nodes edgesOrig) s.eds := by
      have hupd := @kTotalEdges_update (kKeys nodes edgesOrig) s.eds m
        ((s.eds m).erase node) (kKeys_nodup nodes edgesOrig) hmkeys
      rw [← heds2] at hupd
      omega
    have hstep : kInner node s (m :: ms2) =
        kInner node (if eds2 m = [] then KState.mk s.sortedNodes (m :: s.leafNodes) eds2 rev2
          else KState.mk s.sortedNodes s.leafNodes eds2 rev2) ms2 := rfl
    by_cases hempty : eds2 m = []
    · -- m is promoted
      rw [hstep, if_pos hempty]
      have hmidX : KMid nodes edgesOrig node
          (KState.mk s.sortedNodes (m :: s.leafNodes) eds2 rev2) := by
        refine ⟨hpairing2, heds_sub, heds_nodup, hrev_nodup, ?_, hsorted_eds, hsorted_rev,
          hrem, ?_, hmid.topo, hmid.sorted_nodes, ?_, hmid.node_sorted⟩
        · intro n hn
          show eds2 n = []
          rcases List.mem_cons.mp hn with rfl | hn2
          · exact hempty
          · by_cases hnm : n = m
            · subst hnm; exact hempty
            · rw [heds2o n hnm]; exact hmid.leaf_eds n hn2
        · intro d hd he
          replace he : eds2 d = [] := he
          by_cases hdm : d = m
          · subst hdm; exact Or.inl (List.mem_cons_self d s.leafNodes)
          · rw [heds2o d hdm] at he
            rcases hmid.empty_leaf_sorted d hd he with h | h
            · exact Or.inl (List.mem_cons_of_mem m h)
            · exact Or.inr h
        · intro n hn
          rcases List.mem_cons.mp hn with rfl | hn2
          · exact hm_nodes
          · exact hmid.leaf_nodes_mem n hn2
      obtain ⟨hf1, hf2, hf3, hf4, hf5, hf6⟩ := ih _ hmidX hrev2node
      refine ⟨hf1, hf2, hf3, ?_, ?_, ?_⟩
      · have hmX : kMeasure (kKeys nodes edgesOrig)
            (KState.mk s.sortedNodes (m :: s.leafNodes) eds2 rev2) + 1 =
            kMeasure (kKeys nodes edgesOrig) s := by
          show (m :: s.leafNodes).length + 2 * kTotalEdges (kKeys nodes edgesOrig) eds2 + 1 =
            s.leafNodes.length + 2 * kTotalEdges (kKeys nodes edgesOrig) s.eds
          simp only [List.length_cons]
          omega
        simp only [List.length_cons]
        omega
      · intro x hx
        exact hf5 x (List.mem_cons_of_mem m hx)
      · intro hnd
        apply hf6
        have hmnsorted : m ∉ s.sortedNodes := by
          intro h
          rw [hmid.sorted_eds m h] at hnodeeds
          cases hnodeeds
        have hmnleaf : m ∉ s.leafNodes := by
          intro h
          rw [hmid.leaf_eds m h] at hnodeeds
          cases hnodeeds
        show (s.sortedNodes ++ m :: s.leafNodes).Nodup
        rw [List.nodup_middle]
        refine List.nodup_cons.mpr ⟨?_, hnd⟩
        intro h
        rcases List.mem_append.mp h with h | h
        · exact hmnsorted h
        · exact hmnleaf h
    · -- no promotion
      rw [hstep, if_neg hempty]
      have hmidX : KMid nodes edgesOrig node
          (KState.mk s.sortedNodes s.leafNodes eds2 rev2) := by
        refine ⟨hpairing2, heds_sub, heds_nodup, hrev_nodup, ?_, hsorted_eds, hsorted_rev,
          hrem, ?_, hmid.topo, hmid.sorted_nodes, hmid.leaf_nodes_mem, hmid.node_sorted⟩
        · intro n hn
          show eds2 n = []
          have hold := hmid.leaf_eds n hn
          by_cases hnm : n = m
          · subst hnm; rw [hold] at hnodeeds; cases hnodeeds
          · rw [heds2o n hnm]; exact hold
        · intro d hd he
          replace he : eds2 d = [] := he
          by_cases hdm : d = m
          · subst hdm; exact absurd he hempty
          · rw [heds2o d hdm] at he
            exact hmid.empty_leaf_sorted d hd he
      obtain ⟨hf1, hf2, hf3, hf4, hf5, hf6⟩ := ih _ hmidX hrev2node
      refine ⟨hf1, hf2, hf3, ?_, hf5, hf6⟩
      have hmX : kMeasure (kKeys nodes edgesOrig)
          (KState.mk s.sortedNodes s.leafNodes eds2 rev2) + 2 =
          kMeasure (kKeys nodes edgesOrig) s := by
        show s.leafNodes.length + 2 * kTotalEdges (kKeys nodes edgesOrig) eds2 + 2 =
          s.leafNodes.length + 2 * kTotalEdges (kKeys nodes edgesOrig) s.eds
        omega
      simp only [List.length_cons]
      omega

theorem append_singleton_split {l l1 l2 : List Nat} {a m : Nat}
    (h : l ++ [a] = l1 ++ m :: l2) :
    (m = a ∧ l1 = l ∧ l2 = []) ∨ ∃ l2', l2 = l2' ++ [a] ∧ l = l1 ++ m :: l2' := by
  rcases List.append_eq_append_iff.mp h with ⟨w, hw1, hw2⟩ | ⟨w, hw1, hw2⟩
  · cases w with
    | nil =>
      rw [List.append_nil] at hw1
      simp only [List.nil_append] at hw2
      rcases List.cons_eq_cons.mp hw2.symm with ⟨rfl, h2⟩
      exact Or.inl ⟨rfl, hw1, h2⟩
    | cons y w2 =>
      exfalso
      have hlen : ([a] : List Nat).length = ((y :: w2) ++ m :: l2).length := by rw [hw2]
      simp only [List.length_append, List.length_cons, List.length_nil] at hlen
      omega
  · cases w with
    | nil =>
      rw [List.append_nil] at hw1
      simp only [List.nil_append] at hw2
      rcases List.cons_eq_cons.mp hw2 with ⟨rfl, h2⟩
      exact Or.inl ⟨rfl, hw1.symm, h2⟩
    | cons y w2 =>
      simp only [List.cons_append] at hw2
      rcases List.cons_eq_cons.mp hw2 with ⟨rfl, h2⟩
      exact Or.inr ⟨w2, h2, by rw [hw1]⟩

theorem kPop_mid {nodes : List Nat} {edgesOrig : Nat → List Nat} {s : KState}
    {node : Nat} {rest : List Nat} (hinv : KInv nodes edgesOrig s)
    (hleaf : s.leafNodes = node :: rest) :
    KMid nodes edgesOrig node (KState.mk (s.sortedNodes ++ [node]) rest s.eds s.rev) := by
  have hnodeleaf : node ∈ s.leafNodes := by
    rw [hleaf]; exact List.mem_cons_self node rest
  have hnodeeds : s.eds node = [] := hinv.leaf_eds node hnodeleaf
  have hnode_nodes : node ∈ nodes := hinv.leaf_nodes_mem node hnodeleaf
  refine ⟨hinv.pairing, hinv.eds_sub, hinv.eds_nodup, hinv.rev_nodup, ?_, ?_, ?_, ?_, ?_,
    ?_, ?_, ?_, ?_⟩
  · intro n hn
    exact hinv.leaf_eds n (by rw [hleaf]; exact List.mem_cons_of_mem node hn)
  · intro n hn
    rcases List.mem_append.mp hn with hn | hn
    · exact hinv.sorted_eds n hn
    · rw [List.mem_singleton.mp hn]
      exact hnodeeds
  · intro d hd hdn
    rcases List.mem_append.mp hd with hd | hd
    · exact hinv.sorted_rev d hd
    · exact absurd (List.mem_singleton.mp hd) hdn
  · intro m hm d hd hnd
    exact List.mem_append.mpr (Or.inl (hinv.removed_sorted m hm d hd hnd))
  · intro d hd he
    rcases hinv.empty_leaf_sorted d hd he with h | h
    · rw [hleaf] at h
      rcases List.mem_cons.mp h with rfl | h
      · exact Or.inr (List.mem_append.mpr (Or.inr (List.mem_singleton_self d)))
      · exact Or.inl h
    · exact Or.inr (List.mem_append.mpr (Or.inl h))
  · intro l1 m l2 hsp d hd
    rcases append_singleton_split hsp with ⟨rfl, hl1, rfl⟩ | ⟨l2', _, hspl⟩
    · rw [hl1]
      by_cases hne : edgesOrig m = []
      · rw [hne] at hd
        cases hd
      · have hmk : m ∈ kKeys nodes edgesOrig := mem_kKeys.mpr ⟨hnode_nodes, hne⟩
        refine hinv.removed_sorted m hmk d hd ?_
        rw [hnodeeds]
        exact List.not_mem_nil d
    · exact hinv.topo l1 m l2' hspl d hd
  · intro n hn
    rcases List.mem_append.mp hn with hn | hn
    · exact hinv.sorted_nodes n hn
    · rw [List.mem_singleton.mp hn]
      exact hnode_nodes
  · intro n hn
    exact hinv.leaf_nodes_mem n (by rw [hleaf]; exact List.mem_cons_of_mem node hn)
  · exact List.mem_append.mpr (Or.inr (List.mem_singleton_self node))

theorem kMid_to_inv {nodes : List Nat} {edgesOrig : Nat → List Nat} {node : Nat}
    {s : KState} (hmid : KMid nodes edgesOrig node s) (hrevnode : s.rev node = []) :
    KInv nodes edgesOrig s := by
  refine ⟨hmid.pairing, hmid.eds_sub, hmid.eds_nodup, hmid.rev_nodup, hmid.leaf_eds,
    hmid.sorted_eds, ?_, hmid.removed_sorted, hmid.empty_leaf_sorted, hmid.topo,
    hmid.sorted_nodes, hmid.leaf_nodes_mem⟩
  intro d hd
  by_cases hdn : d = node
  · rw [hdn]
    exact hrevnode
  · exact hmid.sorted_rev d hd hdn

theorem kLoop_run {nodes : List Nat} {edgesOrig : Nat → List Nat} :
    ∀ f s, KInv nodes edgesOrig s → kMeasure (kKeys nodes edgesOrig) s < f →
      ∃ s2, kLoop f s = some s2 ∧ KInv nodes edgesOrig s2 ∧ s2.leafNodes = [] ∧
        ((s.sortedNodes ++ s.leafNodes).Nodup → s2.sortedNodes.Nodup) := by
  intro f
  induction f with
  | zero => intro s _ hm; exact absurd hm (Nat.not_lt_zero _)
  | succ f ih =>
    intro s hinv hm
    cases hleaf : s.leafNodes with
    | nil =>
      refine ⟨s, ?_, hinv, hleaf, ?_⟩
      · show kLoop (f + 1) s = some s
        unfold kLoop
        rw [hleaf]
      · intro hnd
        rw [List.append_nil] at hnd
        exact hnd
    | cons node rest =>
      have hmid := kPop_mid hinv hleaf
      obtain ⟨hm1, hm2, _, hm4, _, hm6⟩ :=
        kInner_spec (s.rev node) (KState.mk (s.sortedNodes ++ [node]) rest s.eds s.rev)
          hmid rfl
      have hinv2 := kMid_to_inv hm1 hm2
      have hmX : kMeasure (kKeys nodes edgesOrig)
          (KState.mk (s.sortedNodes ++ [node]) rest s.eds s.rev) + 1 =
          kMeasure (kKeys nodes edgesOrig) s := by
        show rest.length + 2 * kTotalEdges (kKeys nodes edgesOrig) s.eds + 1 =
          s.leafNodes.length + 2 * kTotalEdges (kKeys nodes edgesOrig) s.eds
        rw [hleaf]
        simp only [List.length_cons]
        omega
      have hm2lt : kMeasure (kKeys nodes edgesOrig)
          (kInner node (KState.mk (s.sortedNodes ++ [node]) rest s.eds s.rev)
            (s.rev node)) < f := by
        omega
      obtain ⟨s2, hrun, hi2, he2, hnd2⟩ := ih _ hinv2 hm2lt
      refine ⟨s2, ?_, hi2, he2, ?_⟩
      · show kLoop (f + 1) s = some s2
        unfold kLoop
        rw [hleaf]
        exact hrun
      · intro hnd
        apply hnd2
        apply hm6
        show ((s.sortedNodes ++ [node]) ++ rest).Nodup
        rw [List.append_assoc]
        exact hnd

theorem sort_dag_run (nodes : List Nat) (edgesOrig : Nat → List Nat) :
    ∃ s2, kLoop (sortFuel nodes edgesOrig) (kInit nodes edgesOrig) = some s2 ∧
      KInv nodes edgesOrig s2 ∧ s2.leafNodes = [] ∧
      (nodes.Nodup → s2.sortedNodes.Nodup) := by
  have hmeas : kMeasure (kKeys nodes edgesOrig) (kInit nodes edgesOrig) <
      sortFuel nodes edgesOrig := by
    show (nodes.filter (fun n => (edgesOrig n).isEmpty)).reverse.length +
        2 * kTotalEdges (kKeys nodes edgesOrig) (fun m => pyDedup (edgesOrig m)) <
      nodes.length +
        2 * kTotalEdges (kKeys nodes edgesOrig) (fun m => pyDedup (edgesOrig m)) + 1
    rw [List.length_reverse]
    have := List.length_filter_le (fun n => (edgesOrig n).isEmpty) nodes
    omega
  obtain ⟨s2, hrun, hinv, hleaf, hnd⟩ :=
    kLoop_run (sortFuel nodes edgesOrig) (kInit nodes edgesOrig)
      (kInv_init nodes edgesOrig) hmeas
  refine ⟨s2, hrun, hinv, hleaf, fun hn => hnd ?_⟩
  show (([] : List Nat) ++ (nodes.filter (fun n => (edgesOrig n).isEmpty)).reverse).Nodup
  rw [List.nil_append, List.nodup_reverse]
  exact hn.filter _

theorem indexOf_lt_of_mem_take {l : List Nat} {d : Nat} {n : Nat} (h : d ∈ l.take n) :
    l.indexOf d < n := by
  induction l generalizing n with
  | nil => simp at h
  | cons a l ih =>
    cases n with
    | zero => simp at h
    | succ n =>
      rw [List.take_succ_cons] at h
      by_cases had : d = a
      · subst had
        rw [List.indexOf_cons_self]
        omega
      · rcases List.mem_cons.mp h with h2 | h2
        · exact absurd h2 had
        · rw [List.indexOf_cons_ne l (fun he => had he.symm)]
          have := ih h2
          omega

theorem split_at_indexOf {l : List Nat} {m : Nat} (h : m ∈ l) :
    l = l.take (l.indexOf m) ++ m :: l.drop (l.indexOf m + 1) := by
  have h1 : l.indexOf m < l.length := List.indexOf_lt_length.mpr h
  conv_lhs => rw [← List.take_append_drop (l.indexOf m) l]
  congr 1
  rw [List.drop_eq_getElem_cons h1]
  congr 1
  exact List.getElem_indexOf h1

theorem exists_transGen_cycle {r : Nat → Nat → Prop} (R : List Nat) (f : Nat → Nat)
    (x0 : Nat) (hx0 : x0 ∈ R) (hf : ∀ m ∈ R, f m ∈ R ∧ r m (f m)) :
    ∃ n, Relation.TransGen r n n := by
  have hiter : ∀ k, f^[k] x0 ∈ R := by
    intro k
    induction k with
    | zero => simpa using hx0
    | succ k ih =>
      rw [Function.iterate_succ_apply' f k x0]
      exact (hf _ ih).1
  have hchain : ∀ i k, Relation.TransGen r (f^[i] x0) (f^[i + (k + 1)] x0) := by
    intro i k
    induction k with
    | zero =>
      rw [Function.iterate_succ_apply' f i x0]
      exact Relation.TransGen.single (hf _ (hiter i)).2
    | succ k ih =>
      rw [show i + (k + 1 + 1) = (i + (k + 1)) + 1 by omega,
        Function.iterate_succ_apply' f _ x0]
      exact Relation.TransGen.tail ih (hf _ (hiter _)).2
  have hcard : Fintype.card { x // x ∈ R.toFinset } < Fintype.card (Fin (R.length + 1)) := by
    rw [Fintype.card_coe, Fintype.card_fin]
    have := List.toFinset_card_le (l := R)
    omega
  obtain ⟨i, j, hne, heq⟩ := Fintype.exists_ne_map_eq_of_card_lt
    (fun i : Fin (R.length + 1) =>
      (⟨f^[i.val] x0, List.mem_toFinset.mpr (hiter i.val)⟩ : { x // x ∈ R.toFinset }))
    hcard
  have heq2 : f^[i.val] x0 = f^[j.val] x0 := congrArg Subtype.val heq
  rcases Nat.lt_or_ge i.val j.val with hij | hij
  · obtain ⟨k, hk⟩ : ∃ k, j.val = i.val + (k + 1) := ⟨j.val - i.val - 1, by omega⟩
    refine ⟨f^[i.val] x0, ?_⟩
    have hc := hchain i.val k
    rw [← hk] at hc
    rw [← heq2] at hc
    exact hc
  · have hij2 : j.val < i.val := by
      rcases Nat.lt_or_ge j.val i.val with h | h
      · exact h
      · exact absurd (Fin.ext (by omega)) hne
    obtain ⟨k, hk⟩ : ∃ k, i.val = j.val + (k + 1) := ⟨i.val - j.val - 1, by omega⟩
    refine ⟨f^[j.val] x0, ?_⟩
    have hc := hchain j.val k
    rw [← hk] at hc
    rw [heq2] at hc
    exact hc

theorem sort_dag_complete {nodes : List Nat} {edgesOrig : Nat → List Nat}
    (hcl : ∀ m, ∀ d ∈ edgesOrig m, d ∈ nodes)
    (hacy : ¬ ∃ x, Relation.TransGen (SEdge nodes edgesOrig) x x) :
    ∃ ordered, sort_dag nodes edgesOrig = some (Except.ok ordered) ∧
      (∀ n ∈ nodes, n ∈ ordered) ∧ (∀ n ∈ ordered, n ∈ nodes) ∧
      (∀ l1 m l2, ordered = l1 ++ m :: l2 → ∀ d ∈ edgesOrig m, d ∈ l1) ∧
      (nodes.Nodup → ordered.Nodup) := by
  obtain ⟨s2, hrun, hinv, hleaf, hnd⟩ := sort_dag_run nodes edgesOrig
  have hedsempty : ∀ m ∈ kKeys nodes edgesOrig, s2.eds m = [] := by
    by_contra hc
    push_neg at hc
    obtain ⟨m0, hm0k, hm0ne⟩ := hc
    have hmemR : ∀ m, m ∈ (kKeys nodes edgesOrig).filter (fun m => !(s2.eds m).isEmpty) ↔
        m ∈ kKeys nodes edgesOrig ∧ s2.eds m ≠ [] := by
      intro m
      rw [List.mem_filter]
      simp [List.isEmpty_iff]
    have hstep2 : ∀ m ∈ (kKeys nodes edgesOrig).filter (fun m => !(s2.eds m).isEmpty),
        (s2.eds m).headI ∈ (kKeys nodes edgesOrig).filter (fun m => !(s2.eds m).isEmpty) ∧
          SEdge nodes edgesOrig m ((s2.eds m).headI) := by
      intro m hm
      obtain ⟨hmk, hmne⟩ := (hmemR m).mp hm
      have hd0 : (s2.eds m).headI ∈ s2.eds m := by
        obtain ⟨a, t, hat⟩ := List.exists_cons_of_ne_nil hmne
        rw [hat]
        exact List.mem_cons_self a t
      have hdorig : (s2.eds m).headI ∈ edgesOrig m :=
        mem_pyDedup.mp (hinv.eds_sub m hd0)
      have hsedge : SEdge nodes edgesOrig m ((s2.eds m).headI) :=
        ⟨(mem_kKeys.mp hmk).1, hdorig⟩
      have hdnodes : (s2.eds m).headI ∈ nodes := hcl m _ hdorig
      have hdnsorted : (s2.eds m).headI ∉ s2.sortedNodes := by
        intro hds
        have hrevd := hinv.sorted_rev _ hds
        have hmem2 : m ∈ s2.rev ((s2.eds m).headI) :=
          (hinv.pairing ((s2.eds m).headI) m).mpr ⟨hmk, hd0⟩
        rw [hrevd] at hmem2
        cases hmem2
      have hdne : s2.eds ((s2.eds m).headI) ≠ [] := by
        intro he
        rcases hinv.empty_leaf_sorted _ hdnodes he with h | h
        · rw [hleaf] at h
          cases h
        · exact hdnsorted h
      have hdkeys : (s2.eds m).headI ∈ kKeys nodes edgesOrig := by
        refine mem_kKeys.mpr ⟨hdnodes, ?_⟩
        intro ho
        apply hdne
        have hsub := hinv.eds_sub ((s2.eds m).headI)
        rw [ho] at hsub
        exact List.eq_nil_of_subset_nil hsub
      exact ⟨(hmemR _).mpr ⟨hdkeys, hdne⟩, hsedge⟩
    have hm0R : m0 ∈ (kKeys nodes edgesOrig).filter (fun m => !(s2.eds m).isEmpty) :=
      (hmemR m0).mpr ⟨hm0k, hm0ne⟩
    exact hacy (exists_transGen_cycle _ (fun m => (s2.eds m).headI) m0 hm0R hstep2)
  have hrem : kRemaining (kKeys nodes edgesOrig) s2.eds = [] := by
    unfold kRemaining
    refine List.flatMap_eq_nil_iff.mpr ?_
    intro m hm
    rw [hedsempty m hm]
    rfl
  refine ⟨s2.sortedNodes, ?_, ?_, hinv.sorted_nodes, ?_, hnd⟩
  · unfold sort_dag
    rw [hrun, Option.map_some']
    show some (match kRemaining (kKeys nodes edgesOrig) s2.eds with
      | [] => Except.ok s2.sortedNodes
      | p :: ps => Except.error (p :: ps)) = _
    rw [hrem]
  · intro n hn
    by_cases he : s2.eds n = []
    · rcases hinv.empty_leaf_sorted n hn he with h | h
      · rw [hleaf] at h
        cases h
      · exact h
    · exfalso
      apply he
      apply hedsempty
      refine mem_kKeys.mpr ⟨hn, ?_⟩
      intro ho
      apply he
      have hsub := hinv.eds_sub n
      rw [ho] at hsub
      exact List.eq_nil_of_subset_nil hsub
  · intro l1 m l2 hsp d hd
    exact hinv.topo l1 m l2 hsp d (mem_pyDedup.mpr hd)

theorem sort_dag_cycle {nodes : List Nat} {edgesOrig : Nat → List Nat}
    (hcyc : ∃ x, Relation.TransGen (SEdge nodes edgesOrig) x x) :
    ∃ p ps, sort_dag nodes edgesOrig = some (Except.error (p :: ps)) ∧
      (∀ q ∈ p :: ps, q.1 ∈ nodes ∧ q.2 ∈ edgesOrig q.1) := by
  obtain ⟨s2, hrun, hinv, hleaf, _⟩ := sort_dag_run nodes edgesOrig
  have hne : kRemaining (kKeys nodes edgesOrig) s2.eds ≠ [] := by
    intro hrem0
    have hall : ∀ m ∈ kKeys nodes edgesOrig, s2.eds m = [] := by
      intro m hm
      by_contra hme
      obtain ⟨d, hd⟩ := List.exists_mem_of_ne_nil _ hme
      have hmemrem : (m, d) ∈ kRemaining (kKeys nodes edgesOrig) s2.eds := by
        unfold kRemaining
        exact List.mem_flatMap.mpr ⟨m, hm, List.mem_map.mpr ⟨d, hd, rfl⟩⟩
      rw [hrem0] at hmemrem
      cases hmemrem
    have htarget : ∀ m d, SEdge nodes edgesOrig m d → d ∈ s2.sortedNodes := by
      rintro m d ⟨hmn, hdm⟩
      have hmk : m ∈ kKeys nodes edgesOrig :=
        mem_kKeys.mpr ⟨hmn, fun h0 => by rw [h0] at hdm; cases hdm⟩
      refine hinv.removed_sorted m hmk d (mem_pyDedup.mpr hdm) ?_
      rw [hall m hmk]
      exact List.not_mem_nil d
    have hidx : ∀ m d, SEdge nodes edgesOrig m d → m ∈ s2.sortedNodes →
        s2.sortedNodes.indexOf d < s2.sortedNodes.indexOf m := by
      intro m d hsed hms
      have hsp := split_at_indexOf hms
      have htopo := hinv.topo _ m _ hsp d (mem_pyDedup.mpr hsed.2)
      exact indexOf_lt_of_mem_take htopo
    obtain ⟨x, hx⟩ := hcyc
    have htargets : ∀ a b, Relation.TransGen (SEdge nodes edgesOrig) a b →
        b ∈ s2.sortedNodes := by
      intro a b hab
      induction hab with
      | single h => exact htarget _ _ h
      | tail _ h _ => exact htarget _ _ h
    have hdec : ∀ a b, Relation.TransGen (SEdge nodes edgesOrig) a b →
        a ∈ s2.sortedNodes →
        s2.sortedNodes.indexOf b < s2.sortedNodes.indexOf a := by
      intro a b hab
      induction hab with
      | single h => exact fun ha => hidx _ _ h ha
      | tail hab2 h ih =>
        intro ha
        have hmid := htargets _ _ hab2
        exact lt_trans (hidx _ _ h hmid) (ih ha)
    have := hdec x x hx (htargets _ _ hx)
    omega
  obtain ⟨p, ps, hps⟩ := List.exists_cons_of_ne_nil hne
  refine ⟨p, ps, ?_, ?_⟩
  · unfold sort_dag
    rw [hrun, Option.map_some']
    show some (match kRemaining (kKeys nodes edgesOrig) s2.eds with
      | [] => Except.ok s2.sortedNodes
      | q :: qs => Except.error (q :: qs)) = _
    rw [hps]
  · intro q hq
    rw [← hps] at hq
    unfold kRemaining at hq
    obtain ⟨m, hm, hq2⟩ := List.mem_flatMap.mp hq
    obtain ⟨d, hd, rfl⟩ := List.mem_map.mp hq2
    exact ⟨(mem_kKeys.mp hm).1, mem_pyDedup.mp (hinv.eds_sub m hd)⟩

/-! The ancestor-closure walk of prepare_build: fuel monotonicity,
soundness of the accumulated entry set, and termination on acyclic
well-formed graphs. -/

theorem depsWalk_mono {g : BGraph} {eds : Nat → List Nat} :
    ∀ {f f' : Nat}, f ≤ f' → ∀ {acc stack r}, depsWalk g eds f acc stack = some r →
      depsWalk g eds f' acc stack = some r := by
  intro f
  induction f with
  | zero =>
    intro f' _ acc stack r h
    cases stack with
    | nil =>
      have hr : some acc = some r := h
      cases f' with
      | zero => exact hr
      | succ f2 => exact hr
    | cons v rest => exact absurd h (by simp [depsWalk])
  | succ f ih =>
    intro f' hle acc stack r h
    obtain ⟨f2, rfl⟩ : ∃ f2, f' = f2 + 1 := ⟨f' - 1, by omega⟩
    cases stack with
    | nil => exact h
    | cons v rest =>
      have h1 : depsWalk g eds f (if g.isEntry v then pyInsert acc v else acc)
          ((eds v).reverse ++ rest) = some r := h
      show depsWalk g eds f2 (if g.isEntry v then pyInsert acc v else acc)
        ((eds v).reverse ++ rest) = some r
      exact ih (by omega) h1

theorem depsWalk_sound {g : BGraph} {eds : Nat → List Nat} {Q : Nat → Prop}
    (hQ : ∀ v, Q v → ∀ d ∈ eds v, Q d) :
    ∀ f stack acc r, depsWalk g eds f acc stack = some r →
      (∀ x ∈ stack, Q x) → ∀ x ∈ r, x ∈ acc ∨ (Q x ∧ g.isEntry x = true) := by
  intro f
  induction f with
  | zero =>
    intro stack acc r h hst x hx
    cases stack with
    | nil =>
      obtain rfl : acc = r := Option.some.inj h
      exact Or.inl hx
    | cons v rest => exact absurd h (by simp [depsWalk])
  | succ f ih =>
    intro stack acc r h hst x hx
    cases stack with
    | nil =>
      obtain rfl : acc = r := Option.some.inj h
      exact Or.inl hx
    | cons v rest =>
      have h1 : depsWalk g eds f (if g.isEntry v then pyInsert acc v else acc)
          ((eds v).reverse ++ rest) = some r := h
      have hst1 : ∀ y ∈ (eds v).reverse ++ rest, Q y := by
        intro y hy
        rcases List.mem_append.mp hy with hy | hy
        · exact hQ v (hst v (List.mem_cons_self v rest)) y (List.mem_reverse.mp hy)
        · exact hst y (List.mem_cons_of_mem v hy)
      rcases ih _ _ _ h1 hst1 x hx with hacc | hq
      · by_cases he : g.isEntry v
        · rw [if_pos he] at hacc
          rcases mem_pyInsert.mp hacc with hacc | rfl
          · exact Or.inl hacc
          · exact Or.inr ⟨hst _ (List.mem_cons_self _ _), he⟩
        · rw [if_neg he] at hacc
          exact Or.inl hacc
      · exact Or.inr hq

theorem depsWalk_total {g : BGraph} {eds : Nat → List Nat} (hwf : GraphWF g)
    (hacy : AcyclicG g) (hsub : ∀ v, ∀ d ∈ eds v, d ∈ effDeps g v) :
    ∀ stack, (∀ x ∈ stack, x ∈ g.univ) → ∀ acc,
      ∃ f, (depsWalk g eds f acc stack).isSome := by
  haveI hFin : Finite {x // x ∈ g.univ} := (g.univ.finite_toSet).to_subtype
  have hlift : ∀ x y : {x // x ∈ g.univ},
      Relation.TransGen (fun d v : {x // x ∈ g.univ} => d.val ∈ effDeps g v.val) x y →
      Relation.TransGen (edgeRel g) y.val x.val := by
    intro x y h
    induction h with
    | @single b h1 => exact Relation.TransGen.single ⟨b.property, h1⟩
    | @tail b c h1 h2 ih => exact Relation.TransGen.head ⟨c.property, h2⟩ ih
  haveI hirr : IsIrrefl {x // x ∈ g.univ}
      (Relation.TransGen (fun d v : {x // x ∈ g.univ} => d.val ∈ effDeps g v.val)) :=
    ⟨fun a ha => hacy ⟨a.val, hlift a a ha⟩⟩
  have hwfT : WellFounded
      (Relation.TransGen (fun d v : {x // x ∈ g.univ} => d.val ∈ effDeps g v.val)) :=
    Finite.wellFounded_of_trans_of_irrefl _
  have hwfU : WellFounded (fun d v : {x // x ∈ g.univ} => d.val ∈ effDeps g v.val) :=
    Subrelation.wf (fun h => Relation.TransGen.single h) hwfT
  have key : ∀ v : {x // x ∈ g.univ}, ∀ rest, (∀ x ∈ rest, x ∈ g.univ) →
      (∀ acc, ∃ f, (depsWalk g eds f acc rest).isSome) →
      ∀ acc, ∃ f, (depsWalk g eds f acc (v.val :: rest)).isSome := by
    intro v
    refine hwfU.induction
      (C := fun v => ∀ rest, (∀ x ∈ rest, x ∈ g.univ) →
        (∀ acc, ∃ f, (depsWalk g eds f acc rest).isSome) →
        ∀ acc, ∃ f, (depsWalk g eds f acc (v.val :: rest)).isSome) v ?_
    intro v IH rest hrest hP acc
    have hQ : ∀ push, (∀ d ∈ push, d ∈ eds v.val) →
        ∀ acc2, ∃ f, (depsWalk g eds f acc2 (push ++ rest)).isSome := by
      intro push
      induction push with
      | nil => exact fun _ acc2 => hP acc2
      | cons d ds ihds =>
        intro hmem acc2
        have hdd : d ∈ effDeps g v.val := hsub v.val d (hmem d (List.mem_cons_self d ds))
        have hdU : d ∈ g.univ := hwf v.val v.property d hdd
        have hPds : ∀ acc3, ∃ f, (depsWalk g eds f acc3 (ds ++ rest)).isSome :=
          ihds (fun x hx => hmem x (List.mem_cons_of_mem d hx))
        have hrest2 : ∀ x ∈ ds ++ rest, x ∈ g.univ := by
          intro x hx
          rcases List.mem_append.mp hx with hx | hx
          · exact hwf v.val v.property x (hsub v.val x (hmem x (List.mem_cons_of_mem d hx)))
          · exact hrest x hx
        exact IH ⟨d, hdU⟩ hdd (ds ++ rest) hrest2 hPds acc2
    obtain ⟨f, hf⟩ := hQ ((eds v.val).reverse) (fun d hd => List.mem_reverse.mp hd)
      (if g.isEntry v.val then pyInsert acc v.val else acc)
    exact ⟨f + 1, hf⟩
  intro stack
  induction stack with
  | nil => exact fun _ acc => ⟨0, rfl⟩
  | cons v rest ih =>
    intro hst acc
    exact key ⟨v, hst v (List.mem_cons_self v rest)⟩ rest
      (fun x hx => hst x (List.mem_cons_of_mem v hx))
      (fun acc2 => ih (fun x hx => hst x (List.mem_cons_of_mem v hx)) acc2) acc

theorem allDepsOf_mono {g : BGraph} {eds : Nat → List Nat} {f f' : Nat}
    (hle : f ≤ f') {n : Nat} {r : List Nat} (h : allDepsOf g eds f n = some r) :
    allDepsOf g eds f' n = some r :=
  depsWalk_mono hle h

theorem allDepsOf_total {g : BGraph} {eds : Nat → List Nat} (hwf : GraphWF g)
    (hacy : AcyclicG g) (hsub : ∀ v, ∀ d ∈ eds v, d ∈ effDeps g v) {n : Nat}
    (hn : n ∈ g.univ) : ∃ f, (allDepsOf g eds f n).isSome := by
  refine depsWalk_total hwf hacy hsub ((eds n).reverse) ?_ []
  intro x hx
  exact hwf n hn x (hsub n x (List.mem_reverse.mp hx))

theorem allDepsOf_sound {g : BGraph} {eds : Nat → List Nat} {Q : Nat → Prop}
    (hQ : ∀ v, Q v → ∀ d ∈ eds v, Q d) {f n : Nat} {r : List Nat}
    (h : allDepsOf g eds f n = some r) (hn : Q n) :
    ∀ x ∈ r, Q x ∧ g.isEntry x = true := by
  intro x hx
  have hst : ∀ y ∈ (eds n).reverse, Q y := fun y hy => hQ n hn y (List.mem_reverse.mp hy)
  rcases depsWalk_sound hQ f _ [] r h hst x hx with h0 | h1
  · cases h0
  · exact h1

theorem allDepsList_mono {g : BGraph} {eds : Nat → List Nat} {f f' : Nat}
    (hle : f ≤ f') : ∀ {l : List Nat} {r}, allDepsList g eds f l = some r →
      allDepsList g eds f' l = some r := by
  intro l
  induction l with
  | nil => exact fun h => h
  | cons n ns ih =>
    intro r h
    cases hd : allDepsOf g eds f n with
    | none => rw [allDepsList, hd] at h; cases h
    | some d =>
      cases hr : allDepsList g eds f ns with
      | none => rw [allDepsList, hd, hr] at h; cases h
      | some r0 =>
        rw [allDepsList, hd, hr] at h
        rw [allDepsList, allDepsOf_mono hle hd, ih hr]
        exact h

theorem allDepsList_total {g : BGraph} {eds : Nat → List Nat} (hwf : GraphWF g)
    (hacy : AcyclicG g) (hsub : ∀ v, ∀ d ∈ eds v, d ∈ effDeps g v) :
    ∀ l : List Nat, (∀ n ∈ l, n ∈ g.univ) → ∃ f r, allDepsList g eds f l = some r := by
  intro l
  induction l with
  | nil => exact fun _ => ⟨0, [], rfl⟩
  | cons n ns ih =>
    intro h
    obtain ⟨f1, r1, h1⟩ := ih (fun x hx => h x (List.mem_cons_of_mem n hx))
    obtain ⟨f2, h2⟩ := allDepsOf_total hwf hacy hsub (h n (List.mem_cons_self n ns))
    obtain ⟨d, hd⟩ := Option.isSome_iff_exists.mp h2
    refine ⟨max f1 f2, (n, d) :: r1, ?_⟩
    rw [allDepsList, allDepsOf_mono (le_max_right f1 f2) hd,
      allDepsList_mono (le_max_left f1 f2) h1]

theorem allDepsList_mem {g : BGraph} {eds : Nat → List Nat} {f : Nat} :
    ∀ {l : List Nat} {r}, allDepsList g eds f l = some r →
      (∀ p ∈ r, p.1 ∈ l ∧ allDepsOf g eds f p.1 = some p.2) ∧
      (∀ n ∈ l, ∃ d, (n, d) ∈ r) := by
  intro l
  induction l with
  | nil =>
    intro r h
    obtain rfl : ([] : List (Nat × List Nat)) = r := Option.some.inj h
    exact ⟨fun p hp => absurd hp (List.not_mem_nil p), fun n hn => absurd hn (List.not_mem_nil n)⟩
  | cons n ns ih =>
    intro r h
    cases hd : allDepsOf g eds f n with
    | none => rw [allDepsList, hd] at h; cases h
    | some d =>
      cases hr : allDepsList g eds f ns with
      | none => rw [allDepsList, hd, hr] at h; cases h
      | some r0 =>
        rw [allDepsList, hd, hr] at h
        obtain rfl : (n, d) :: r0 = r := Option.some.inj h
        obtain ⟨ihmem, ihcov⟩ := ih hr
        constructor
        · intro p hp
          rcases List.mem_cons.mp hp with rfl | hp
          · exact ⟨List.mem_cons_self n ns, hd⟩
          · exact ⟨List.mem_cons_of_mem n (ihmem p hp).1, (ihmem p hp).2⟩
        · intro m hm
          rcases List.mem_cons.mp hm with rfl | hm
          · exact ⟨d, List.mem_cons_self _ _⟩
          · obtain ⟨e, he⟩ := ihcov m hm
            exact ⟨e, List.mem_cons_of_mem _ he⟩

theorem find_fst_lookup {r : List (Nat × List Nat)} {n : Nat} {d : List Nat}
    (hall : ∀ p ∈ r, p.1 = n → p.2 = d) (hex : ∃ p ∈ r, p.1 = n) :
    ((r.find? (fun p => p.fst == n)).map Prod.snd).getD [] = d := by
  induction r with
  | nil =>
    obtain ⟨p, hp, _⟩ := hex
    cases hp
  | cons q qs ih =>
    by_cases hq : q.1 = n
    · rw [List.find?_cons_of_pos _ (by simpa using hq)]
      simp [hall q (List.mem_cons_self q qs) hq]
    · rw [List.find?_cons_of_neg _ (by simpa using hq)]
      refine ih (fun p hp h1 => hall p (List.mem_cons_of_mem q hp) h1) ?_
      obtain ⟨p, hp, hpn⟩ := hex
      rcases List.mem_cons.mp hp with rfl | hp
      · exact absurd hpn hq
      · exact ⟨p, hp, hpn⟩

/-! Acyclicity helpers: a rank function refutes cycles, and cycles transfer
between the abstract graph and the edge dict built by the traversal. -/

theorem no_cycle_of_rank {r : Nat → Nat → Prop} (rank : Nat → Nat)
    (h : ∀ m d, r m d → rank d < rank m) : ¬ ∃ n, Relation.TransGen r n n := by
  rintro ⟨n, hn⟩
  have key : ∀ a b, Relation.TransGen r a b → rank b < rank a := by
    intro a b hab
    induction hab with
    | single h1 => exact h _ _ h1
    | tail _ h2 ih => exact lt_trans (h _ _ h2) ih
  exact lt_irrefl _ (key n n hn)

theorem acyclicG_of_rank {g : BGraph} (rank : Nat → Nat)
    (h : ∀ m d, edgeRel g m d → rank d < rank m) : AcyclicG g :=
  no_cycle_of_rank rank h

theorem no_sedge_cycle {g : BGraph} {allNodes : List Nat} {eds : Nat → List Nat}
    (huniv : ∀ x ∈ allNodes, x ∈ g.univ)
    (hed : ∀ m ∈ allNodes, ∀ y, y ∈ eds m ↔ y ∈ effDeps g m)
    (hacy : AcyclicG g) :
    ¬ ∃ n, Relation.TransGen (SEdge allNodes eds) n n := by
  rintro ⟨n, hn⟩
  refine hacy ⟨n, Relation.TransGen.mono ?_ hn⟩
  intro a b hab
  exact ⟨huniv a hab.1, (hed a hab.1 b).mp hab.2⟩

theorem reachable_cycle_sedge {g : BGraph} {targets : List Nat}
    {allNodes : List Nat} {eds : Nat → List Nat}
    (hmem : ∀ x, x ∈ allNodes ↔ Reaches g targets x)
    (hed : ∀ m ∈ allNodes, ∀ y, y ∈ eds m ↔ y ∈ effDeps g m) :
    ∀ n, Reaches g targets n → Relation.TransGen (edgeRel g) n n →
      ∃ m, Relation.TransGen (SEdge allNodes eds) m m := by
  have key : ∀ a b, Relation.TransGen (edgeRel g) a b →
      Reaches g targets a → Relation.TransGen (SEdge allNodes eds) a b := by
    intro a b hab
    induction hab using Relation.TransGen.head_induction_on with
    | base h1 =>
      intro ha
      have han : _ ∈ allNodes := (hmem _).mpr ha
      exact Relation.TransGen.single ⟨han, (hed _ han _).mpr h1.2⟩
    | ih h1 _ ih3 =>
      intro ha
      have hc : Reaches g targets _ := Reaches.step ha h1.2
      have han : _ ∈ allNodes := (hmem _).mpr ha
      exact Relation.TransGen.head ⟨han, (hed _ han _).mpr h1.2⟩ (ih3 hc)
  intro n hreach hcyc
  exact ⟨n, key n n hcyc hreach⟩

/-! Generic fold lemmas for the set-accumulating passes, and the effective
out-edge characterization. -/

theorem foldl_state_pres {α β : Type} {f : α → β → α} {I : α → Prop}
    (hstep : ∀ st v, I st → I (f st v)) :
    ∀ (l : List β) (st : α), I st → I (l.foldl f st) := by
  intro l
  induction l with
  | nil => exact fun st h => h
  | cons v vs ih => exact fun st h => ih (f st v) (hstep st v h)

theorem foldl_subset {f : List Nat → Nat → List Nat}
    (hf : ∀ tb n, tb ⊆ f tb n) : ∀ (l : List Nat) (tb : List Nat), tb ⊆ l.foldl f tb := by
  intro l
  induction l with
  | nil => exact fun tb => List.Subset.refl tb
  | cons v vs ih => exact fun tb => (hf tb v).trans (ih (f tb v))

theorem foldl_origin {f : List Nat → Nat → List Nat} {P : Nat → Nat → Prop}
    (hf : ∀ tb n x, x ∈ f tb n → x ∈ tb ∨ P n x) :
    ∀ (l : List Nat) (tb : List Nat) (x : Nat), x ∈ l.foldl f tb →
      x ∈ tb ∨ ∃ n ∈ l, P n x := by
  intro l
  induction l with
  | nil => exact fun tb x hx => Or.inl hx
  | cons v vs ih =>
    intro tb x hx
    rcases ih (f tb v) x hx with hx2 | ⟨n, hn, hP⟩
    · rcases hf tb v x hx2 with hx3 | hP
      · exact Or.inl hx3
      · exact Or.inr ⟨v, List.mem_cons_self v vs, hP⟩
    · exact Or.inr ⟨n, List.mem_cons_of_mem v hn, hP⟩

theorem foldl_prefix_invariant {f : List Nat → Nat → List Nat}
    {I : List Nat → List Nat → Prop} {L : List Nat}
    (hstep : ∀ p v s tb, L = p ++ v :: s → I p tb → I (p ++ [v]) (f tb v)) :
    ∀ (s p : List Nat) (tb : List Nat), L = p ++ s → I p tb → I L (s.foldl f tb) := by
  intro s
  induction s with
  | nil =>
    intro p tb hL hI
    rw [List.append_nil] at hL
    rw [hL]
    exact hI
  | cons v s2 ih =>
    intro p tb hL hI
    refine ih (p ++ [v]) (f tb v) ?_ (hstep p v s2 tb hL hI)
    rw [hL, List.append_assoc]
    rfl

theorem mem_effDeps {g : BGraph} {n y : Nat} :
    y ∈ effDeps g n ↔
      (y ∈ g.depends n ∨ ∃ b, g.builder n = some b ∧
        (y ∈ g.builderDeps b ∨ ∃ s ∈ g.builds b, y ∈ g.depends s)) := by
  unfold effDeps
  rw [mem_pyDedup, List.mem_append]
  cases hb : g.builder n with
  | none =>
    constructor
    · rintro (h | h)
      · exact Or.inl h
      · cases h
    · rintro (h | ⟨b, hb2, _⟩)
      · exact Or.inl h
      · cases hb2
  | some b =>
    rw [List.mem_append, List.mem_flatMap]
    constructor
    · rintro (h | h | ⟨s, hs, hy⟩)
      · exact Or.inl h
      · exact Or.inr ⟨b, rfl, Or.inl h⟩
      · exact Or.inr ⟨b, rfl, Or.inr ⟨s, hs, hy⟩⟩
    · rintro (h | ⟨b2, hb2, h | ⟨s, hs, hy⟩⟩)
      · exact Or.inl h
      · obtain rfl : b = b2 := Option.some.inj hb2
        exact Or.inr (Or.inl h)
      · obtain rfl : b = b2 := Option.some.inj hb2
        exact Or.inr (Or.inr ⟨s, hs, hy⟩)

theorem isTopoOrder_of_split {l : List Nat} {edges : Nat → List Nat}
    (hnd : l.Nodup)
    (h : ∀ l1 m l2, l = l1 ++ m :: l2 → ∀ d ∈ edges m, d ∈ l1) :
    IsTopoOrder l edges := by
  intro j d hd i hi
  have hsplit : l = l.take j.val ++ l.get j :: l.drop (j.val + 1) := by
    conv_lhs => rw [← List.take_append_drop j.val l]
    rw [List.drop_eq_getElem_cons j.isLt]
    rfl
  have hdl1 : d ∈ l.take j.val := h _ _ _ hsplit d hd
  have hidx : l.indexOf d < j.val := indexOf_lt_of_mem_take hdl1
  have hlen : l.indexOf d < l.length := List.indexOf_lt_length.mpr (l.take_subset _ hdl1)
  have hget : l.get ⟨l.indexOf d, hlen⟩ = d := List.getElem_indexOf hlen
  have : i = ⟨l.indexOf d, hlen⟩ := by
    refine (List.Nodup.get_inj_iff hnd).mp ?_
    rw [hget, hi]
  rw [this]
  exact hidx

theorem metadata_signature_total {md : Nat → Option Nat} :
    ∀ {deps : List Nat}, (∀ e ∈ deps, (md e).isSome) →
      ∃ s, metadata_signature md deps = some s := by
  intro deps
  induction deps with
  | nil => exact fun _ => ⟨[], rfl⟩
  | cons e es ih =>
    intro h
    obtain ⟨v, hv⟩ := Option.isSome_iff_exists.mp (h e (List.mem_cons_self e es))
    obtain ⟨s, hs⟩ := ih (fun x hx => h x (List.mem_cons_of_mem e hx))
    exact ⟨(e, v) :: s, by rw [metadata_signature, hv, hs]⟩

/-! Success of the freshness analysis when every metadata signature can be
gathered, and composition of the prepare_build phases on well-formed
acyclic inputs. -/

theorem freshnessStep_ok {g : BGraph} {db : Nat → Option Sig} {md : Nat → Option Nat}
    {allDeps : Nat → List Nat} (st : List Nat × List Nat) (n : Nat)
    (hsig : ∃ s, metadata_signature md (allDeps n) = some s) :
    ∃ st2 : List Nat × List Nat,
      freshnessStep g db md allDeps st n = Except.ok st2 ∧
      (∀ x ∈ st.1, x ∈ st2.1) ∧
      (g.isEntry n = true → (g.builder n).isSome = true → g.pathExists n = false →
        n ∈ st2.1) := by
  by_cases h1 : g.isEntry n = true ∧ (g.builder n).isSome = true
  · have hq1 : freshnessStep g db md allDeps st n =
        (if g.pathExists n = false then Except.ok (pyInsert st.1 n, st.2)
         else
           match metadata_signature md (allDeps n) with
           | none => Except.error PyErr.keyError
           | some newMd =>
             if pyOptDictNe (db n) newMd then
               Except.ok (pyInsert st.1 n, changedUpdates (db n) newMd (allDeps n) st.2)
             else Except.ok st) := by
      unfold freshnessStep
      rw [if_pos h1]
    by_cases h2 : g.pathExists n = false
    · rw [if_pos h2] at hq1
      exact ⟨_, hq1, fun x hx => subset_pyInsert st.1 n hx,
        fun _ _ _ => mem_pyInsert.mpr (Or.inr rfl)⟩
    · rw [if_neg h2] at hq1
      obtain ⟨s, hs⟩ := hsig
      have hq2 : (match metadata_signature md (allDeps n) with
          | none => Except.error PyErr.keyError
          | some newMd =>
            if pyOptDictNe (db n) newMd then
              Except.ok (pyInsert st.1 n, changedUpdates (db n) newMd (allDeps n) st.2)
            else Except.ok st) =
          (if pyOptDictNe (db n) s then
             Except.ok (pyInsert st.1 n, changedUpdates (db n) s (allDeps n) st.2)
           else Except.ok st) := by
        rw [hs]
      rw [hq2] at hq1
      by_cases h3 : pyOptDictNe (db n) s = true
      · rw [if_pos h3] at hq1
        exact ⟨_, hq1, fun x hx => subset_pyInsert st.1 n hx, fun _ _ hp => absurd hp h2⟩
      · rw [if_neg h3] at hq1
        exact ⟨st, hq1, fun x hx => hx, fun _ _ hp => absurd hp h2⟩
  · refine ⟨st, ?_, fun x hx => hx, fun ha hb _ => absurd ⟨ha, hb⟩ h1⟩
    unfold freshnessStep
    rw [if_neg h1]

theorem freshness_fold_ok {g : BGraph} {db : Nat → Option Sig} {md : Nat → Option Nat}
    {allDeps : Nat → List Nat}
    (hsig : ∀ n, ∃ s, metadata_signature md (allDeps n) = some s) :
    ∀ (l : List Nat) (st : List Nat × List Nat),
      ∃ out ch, l.foldlM (freshnessStep g db md allDeps) st = Except.ok (out, ch) ∧
        (∀ x ∈ st.1, x ∈ out) ∧
        (∀ n ∈ l, g.isEntry n = true → (g.builder n).isSome = true →
          g.pathExists n = false → n ∈ out) := by
  intro l
  induction l with
  | nil =>
    exact fun st => ⟨st.1, st.2, rfl, fun x h => h, fun n hn => absurd hn (List.not_mem_nil n)⟩
  | cons n ns ih =>
    intro st
    obtain ⟨st2, hst2, hmono2, hn2⟩ := freshnessStep_ok st n (hsig n)
    obtain ⟨out, ch, hrun, hmono, hcov⟩ := ih st2
    refine ⟨out, ch, ?_, fun x hx => hmono x (hmono2 x hx), ?_⟩
    · rw [List.foldlM_cons, hst2]
      exact hrun
    · intro m hm he hb hp
      rcases List.mem_cons.mp hm with rfl | hm
      · exact hmono _ (hn2 he hb hp)
      · exact hcov m hm he hb hp

theorem prepare_build_ok_run {g : BGraph} {db : Nat → Option Sig} {targetNodes : List Nat}
    (hwf : GraphWF g) (hacy : AcyclicG g) (hts : ∀ x ∈ targetNodes, x ∈ g.univ)
    (hnb : NoBuilderEntriesExist g) :
    (∃ fD r, prepare_build fD g db targetNodes = some r) ∧
    (∀ fD r, prepare_build fD g db targetNodes = some r →
      ∃ pb, r = Except.ok pb ∧
        ∀ e, Reaches g targetNodes e → g.isEntry e = true → (g.builder e).isSome = true →
          g.pathExists e = false → e ∈ pb.out_of_date) := by
  obtain ⟨allNodes, eds, htr, hmem, hed, hedempty, huniv⟩ := traverse_node_graph_spec hwf hts
  have hsub2 : ∀ v, ∀ d ∈ eds v, d ∈ effDeps g v := by
    intro v d hd
    by_cases hv : v ∈ allNodes
    · exact (hed v hv d).mp hd
    · rw [hedempty v hv] at hd; cases hd
  have hcl : ∀ m, ∀ d ∈ eds m, d ∈ allNodes := by
    intro m d hd
    by_cases hm : m ∈ allNodes
    · exact (hmem d).mpr (Reaches.step ((hmem m).mp hm) ((hed m hm d).mp hd))
    · rw [hedempty m hm] at hd; cases hd
  have hnoc : ¬ ∃ x, Relation.TransGen (SEdge allNodes eds) x x :=
    no_sedge_cycle huniv hed hacy
  obtain ⟨ordered, hsort, _, _, _, _⟩ := sort_dag_complete (fun m d hd => hcl m d hd) hnoc
  have s1 : ∀ fD, prepare_build fD g db targetNodes = pbSorted fD g db targetNodes allNodes eds := by
    intro fD
    unfold prepare_build
    rw [htr]
  have s2 : ∀ fD, pbSorted fD g db targetNodes allNodes eds =
      pbWithDeps fD g db targetNodes allNodes eds ordered
        (pyDedup (allNodes.filter (fun n => g.isEntry n))) := by
    intro fD
    unfold pbSorted
    rw [hsort]
  have hfind : (pyDedup (allNodes.filter (fun n => g.isEntry n))).find?
      (fun e => (g.builder e).isNone && ! g.pathExists e) = none := by
    rw [List.find?_eq_none]
    intro x hx
    have hx2 : x ∈ allNodes.filter (fun n => g.isEntry n) := mem_pyDedup.mp hx
    have hxA : x ∈ allNodes := List.mem_of_mem_filter hx2
    have hxE : g.isEntry x = true := List.of_mem_filter hx2
    cases hbx : g.builder x with
    | some b => simp [hbx]
    | none =>
      have hpx : g.pathExists x = true := hnb x (huniv x hxA) hxE hbx
      simp [hbx, hpx]
  have main : ∀ fD adList, allDepsList g eds fD allNodes = some adList →
      ∃ pb, prepare_build fD g db targetNodes = some (Except.ok pb) ∧
        ∀ e, Reaches g targetNodes e → g.isEntry e = true → (g.builder e).isSome = true →
          g.pathExists e = false → e ∈ pb.out_of_date := by
    intro fD adList hADL
    obtain ⟨hADmem, _⟩ := allDepsList_mem hADL
    have hAD : ∀ n, ∀ x ∈ ((adList.find? (fun p => p.fst == n)).map Prod.snd).getD [],
        x ∈ pyDedup (allNodes.filter (fun n2 => g.isEntry n2)) := by
      intro n x hx
      cases hf : adList.find? (fun p => p.fst == n) with
      | none => rw [hf] at hx; cases hx
      | some p =>
        rw [hf] at hx
        have hpm := hADmem p (List.mem_of_find?_eq_some hf)
        have hx2 : x ∈ p.2 := hx
        have hsound := allDepsOf_sound (Q := fun v => v ∈ allNodes)
          (fun v _ d hd => hcl v d hd) hpm.2 hpm.1 x hx2
        exact mem_pyDedup.mpr (List.mem_filter.mpr ⟨hsound.1, hsound.2⟩)
    have hsig : ∀ n, ∃ s, metadata_signature
        (pbMd g (pyDedup (allNodes.filter (fun n2 => g.isEntry n2))))
        (((adList.find? (fun p => p.fst == n)).map Prod.snd).getD []) = some s := by
      intro n
      refine metadata_signature_total ?_
      intro x hx
      unfold pbMd
      rw [if_pos (hAD n x hx)]
      rfl
    obtain ⟨out, ch, hrun, _, hcov⟩ :=
      @freshness_fold_ok g db _ _ hsig allNodes ([], [])
    refine ⟨{ ordered_nodes := ordered
              buildable_entries :=
                pyDedup (ordered.filter (fun e => g.isEntry e && (g.builder e).isSome))
              edges := eds
              out_of_date := out
              changed := ch
              entry_dependencies :=
                fun n => ((adList.find? (fun p => p.fst == n)).map Prod.snd).getD []
              targets := targetNodes }, ?_,
      fun e hre hent hbl hpath => hcov e ((hmem e).mpr hre) hent hbl hpath⟩
    have s3 : pbWithDeps fD g db targetNodes allNodes eds ordered
        (pyDedup (allNodes.filter (fun n => g.isEntry n))) =
        pbCheckMissing g db targetNodes allNodes eds ordered
          (pyDedup (allNodes.filter (fun n => g.isEntry n))) adList := by
      unfold pbWithDeps
      rw [hADL]
    have s4 : pbCheckMissing g db targetNodes allNodes eds ordered
        (pyDedup (allNodes.filter (fun n => g.isEntry n))) adList =
        pbFreshness g db (pbMd g (pyDedup (allNodes.filter (fun n => g.isEntry n))))
          (fun n => ((adList.find? (fun p => p.fst == n)).map Prod.snd).getD [])
          allNodes ordered eds targetNodes := by
      unfold pbCheckMissing
      rw [hfind]
    have s5 : pbFreshness g db (pbMd g (pyDedup (allNodes.filter (fun n => g.isEntry n))))
        (fun n => ((adList.find? (fun p => p.fst == n)).map Prod.snd).getD [])
        allNodes ordered eds targetNodes =
        some (Except.ok
          { ordered_nodes := ordered
            buildable_entries :=
              pyDedup (ordered.filter (fun e => g.isEntry e && (g.builder e).isSome))
            edges := eds
            out_of_date := out
            changed := ch
            entry_dependencies :=
              fun n => ((adList.find? (fun p => p.fst == n)).map Prod.snd).getD []
            targets := targetNodes }) := by
      unfold pbFreshness
      rw [hrun]
    rw [s1 fD, s2 fD, s3, s4, s5]
  constructor
  · obtain ⟨fD0, adList, hADL⟩ := allDepsList_total hwf hacy hsub2 allNodes huniv
    obtain ⟨pb, hpb, _⟩ := main fD0 adList hADL
    exact ⟨fD0, Except.ok pb, hpb⟩
  · intro fD r hr
    cases hADL : allDepsList g eds fD allNodes with
    | none =>
      rw [s1 fD, s2 fD] at hr
      unfold pbWithDeps at hr
      rw [hADL] at hr
      have hnone : (none : Option (Except PyErr PreparedBuildM)) = some r := hr
      cases hnone
    | some adList =>
      obtain ⟨pb, hpb, hcov⟩ := main fD adList hADL
      rw [hr] at hpb
      obtain rfl : r = Except.ok pb := Option.some.inj hpb
      exact ⟨pb, rfl, hcov⟩

/-- C1: for every reachable entry node that has a builder and whose path is
missing from disk, prepare_build completes the freshness analysis without
raising and every returned PreparedBuild lists that entry as out of date,
provided every no-builder entry exists on disk.  Amended: the original
claim ranges over any dependency graph; the graph must additionally be
acyclic (with declared, well-formed nodes), since on a cyclic graph
prepare_build raises DependencyError before the freshness analysis — see
the counterexample. -/
theorem C1_missing_output_marked_outdated {g : BGraph} {db : Nat → Option Sig}
    {targetNodes : List Nat} {e : Nat} (hwf : GraphWF g) (hacy : AcyclicG g)
    (hts : ∀ x ∈ targetNodes, x ∈ g.univ) (hnb : NoBuilderEntriesExist g)
    (hre : Reaches g targetNodes e) (hent : g.isEntry e = true)
    (hbld : (g.builder e).isSome = true) (hpath : g.pathExists e = false) :
    PrepareBuildMarksOutdated g db targetNodes e := by
  obtain ⟨⟨fD, r, hr⟩, hdet⟩ := @prepare_build_ok_run g db targetNodes hwf hacy hts hnb
  obtain ⟨pb, rfl, hcov⟩ := hdet fD r hr
  refine ⟨⟨fD, pb, hr, hcov e hre hent hbld hpath⟩, ?_⟩
  intro fD2 r2 hr2
  obtain ⟨pb2, rfl, hcov2⟩ := hdet fD2 r2 hr2
  exact ⟨pb2, rfl, hcov2 e hre hent hbld hpath⟩

/-- Witness for C1 on the acyclic graph gW1: entry 0 has a builder, its
path is missing, and prepare_build marks it out of date. -/
theorem C1_missing_output_marked_outdated_witness :
    PrepareBuildMarksOutdated gW1 dbEmpty [0] 0 := by
  have hacy : AcyclicG gW1 := by
    refine acyclicG_of_rank (fun n => if n = 0 then 1 else 0) ?_
    rintro m d ⟨hm, hd⟩
    have hm2 : m = 0 ∨ m = 1 := by simpa [gW1] using hm
    rcases hm2 with rfl | rfl
    · have he : effDeps gW1 0 = [1] := rfl
      rw [he] at hd
      obtain rfl : d = 1 := List.mem_singleton.mp hd
      decide
    · have he : effDeps gW1 1 = [] := rfl
      rw [he] at hd
      cases hd
  exact C1_missing_output_marked_outdated (by decide) hacy (by decide) (by decide)
    (Reaches.target (by decide)) rfl rfl rfl

/-- Counterexample to the unamended C1: on the cyclic graph gC1x every
hypothesis of the original claim holds (all no-builder entries exist on
disk, node 0 is a reachable entry with a builder and a missing path), yet
prepare_build raises DependencyError for every walk fuel and never marks
the entry out of date. -/
theorem C1_counterexample :
    PrepareBuildRaisesDep gC1x dbEmpty [0] ∧
    NoBuilderEntriesExist gC1x ∧
    Reaches gC1x [0] 0 ∧ gC1x.isEntry 0 = true ∧ (gC1x.builder 0).isSome = true ∧
    gC1x.pathExists 0 = false ∧
    ¬ PrepareBuildMarksOutdated gC1x dbEmpty [0] 0 := by
  have hrun : ∀ fD, prepare_build fD gC1x dbEmpty [0] =
      some (Except.error (PyErr.dependencyError
        (cycleMessage gC1x.nodeStr [(0, 1), (1, 0)]))) := fun fD => rfl
  refine ⟨fun fD => ⟨_, hrun fD⟩, by decide, Reaches.target (by decide), rfl, rfl, rfl, ?_⟩
  rintro ⟨⟨fD, pb, hpb, _⟩, _⟩
  rw [hrun fD] at hpb
  exact Except.noConfusion (Option.some.inj hpb)

/-- C3: when the reachable subgraph of the targets has a dependency cycle,
prepare_build raises DependencyError whose message is the cycle message
over the remaining offending edges, build_targets in serial mode
propagates that error without invoking any builder (its builder loop runs
only on a successful PreparedBuild), every reported pair is a real
dependency edge of the graph, and every pair is rendered as its own
source-arrow-target line of the message. -/
theorem C3_cycle_raises_before_build {g : BGraph} {db : Nat → Option Sig}
    {targetNodes : List Nat} (hwf : GraphWF g)
    (hts : ∀ x ∈ targetNodes, x ∈ g.univ) (hcyc : HasReachableCycle g targetNodes) :
    ∀ fD, ∃ p ps,
      prepare_build fD g db targetNodes =
        some (Except.error (PyErr.dependencyError (cycleMessage g.nodeStr (p :: ps)))) ∧
      build_targets_serial fD g db targetNodes =
        some (Except.error (PyErr.dependencyError (cycleMessage g.nodeStr (p :: ps)))) ∧
      (∀ q ∈ p :: ps, q.1 ∈ g.univ ∧ q.2 ∈ effDeps g q.1) ∧
      (∀ q ∈ p :: ps, pairLine g.nodeStr q ∈ cycleMessageLines g.nodeStr (p :: ps)) := by
  obtain ⟨allNodes, eds, htr, hmem, hed, hedempty, huniv⟩ := traverse_node_graph_spec hwf hts
  obtain ⟨n, hre, hcyc2⟩ := hcyc
  obtain ⟨m, hmc⟩ := reachable_cycle_sedge hmem hed n hre hcyc2
  obtain ⟨p, ps, hsort, hedges⟩ := sort_dag_cycle ⟨m, hmc⟩
  intro fD
  have hpb : prepare_build fD g db targetNodes =
      some (Except.error (PyErr.dependencyError (cycleMessage g.nodeStr (p :: ps)))) := by
    have t1 : prepare_build fD g db targetNodes =
        pbSorted fD g db targetNodes allNodes eds := by
      unfold prepare_build
      rw [htr]
    have t2 : pbSorted fD g db targetNodes allNodes eds =
        some (Except.error (PyErr.dependencyError (cycleMessage g.nodeStr (p :: ps)))) := by
      unfold pbSorted
      rw [hsort]
    rw [t1, t2]
  refine ⟨p, ps, hpb, ?_, ?_, ?_⟩
  · unfold build_targets_serial
    rw [hpb]
  · intro q hq
    obtain ⟨h1, h2⟩ := hedges q hq
    exact ⟨huniv q.1 h1, (hed q.1 h1 q.2).mp h2⟩
  · intro q hq
    unfold cycleMessageLines
    exact List.mem_map_of_mem _ hq

/-- Witness for C3 on the two-node cycle gC3w. -/
theorem C3_cycle_raises_before_build_witness :
    ∃ p ps,
      prepare_build 0 gC3w dbEmpty [0] =
        some (Except.error (PyErr.dependencyError (cycleMessage gC3w.nodeStr (p :: ps)))) ∧
      build_targets_serial 0 gC3w dbEmpty [0] =
        some (Except.error (PyErr.dependencyError (cycleMessage gC3w.nodeStr (p :: ps)))) ∧
      (∀ q ∈ p :: ps, q.1 ∈ gC3w.univ ∧ q.2 ∈ effDeps gC3w q.1) ∧
      (∀ q ∈ p :: ps, pairLine gC3w.nodeStr q ∈ cycleMessageLines gC3w.nodeStr (p :: ps)) := by
  have hcyc : HasReachableCycle gC3w [0] := by
    refine ⟨0, Reaches.target (by decide), ?_⟩
    have h01 : edgeRel gC3w 0 1 := ⟨by decide, by decide⟩
    have h10 : edgeRel gC3w 1 0 := ⟨by decide, by decide⟩
    exact Relation.TransGen.head h01 (Relation.TransGen.single h10)
  exact C3_cycle_raises_before_build (by decide) (by decide) hcyc 0

/-- C2: on an acyclic graph (duplicate-free node list, edges into the node
set), _sort_dag returns a list containing every input node in which every
dependency appears strictly before every node that depends on it. -/
theorem C2_sort_dag_topological {nodes : List Nat} {edgesOrig : Nat → List Nat}
    (hnd : nodes.Nodup) (hcl : ∀ m, ∀ d ∈ edgesOrig m, d ∈ nodes)
    (hacy : ¬ ∃ x, Relation.TransGen (SEdge nodes edgesOrig) x x) :
    ∃ ordered, sort_dag nodes edgesOrig = some (Except.ok ordered) ∧
      (∀ n ∈ nodes, n ∈ ordered) ∧ (∀ n ∈ ordered, n ∈ nodes) ∧
      ordered.Nodup ∧ IsTopoOrder ordered edgesOrig := by
  obtain ⟨ordered, hrun, hcov, hsub, htopo, hndi⟩ := sort_dag_complete hcl hacy
  exact ⟨ordered, hrun, hcov, hsub, hndi hnd, isTopoOrder_of_split (hndi hnd) htopo⟩

/-- Witness for C2 on the three-node diamond nodesW2 / edgesW2. -/
theorem C2_sort_dag_topological_witness :
    ∃ ordered, sort_dag nodesW2 edgesW2 = some (Except.ok ordered) ∧
      (∀ n ∈ nodesW2, n ∈ ordered) ∧ (∀ n ∈ ordered, n ∈ nodesW2) ∧
      ordered.Nodup ∧ IsTopoOrder ordered edgesW2 := by
  have hcl : ∀ m, ∀ d ∈ edgesW2 m, d ∈ nodesW2 := by
    intro m d hd
    simp only [edgesW2] at hd
    by_cases h0 : m = 0
    · rw [if_pos h0] at hd
      have : d = 1 ∨ d = 2 := by simpa using hd
      rcases this with rfl | rfl <;> decide
    · rw [if_neg h0] at hd
      by_cases h2 : m = 2
      · rw [if_pos h2] at hd
        obtain rfl : d = 1 := by simpa using hd
        decide
      · rw [if_neg h2] at hd
        cases hd
  have hacy : ¬ ∃ x, Relation.TransGen (SEdge nodesW2 edgesW2) x x := by
    refine no_cycle_of_rank (fun n => if n = 0 then 2 else if n = 2 then 1 else 0) ?_
    rintro m d ⟨hm, hd⟩
    have hm2 : m = 0 ∨ m = 1 ∨ m = 2 := by simpa [nodesW2] using hm
    rcases hm2 with rfl | rfl | rfl
    · have he : edgesW2 0 = [1, 2] := rfl
      rw [he] at hd
      have : d = 1 ∨ d = 2 := by simpa using hd
      rcases this with rfl | rfl <;> decide
    · have he : edgesW2 1 = [] := rfl
      rw [he] at hd
      cases hd
    · have he : edgesW2 2 = [1] := rfl
      rw [he] at hd
      obtain rfl : d = 1 := List.mem_singleton.mp hd
      decide
  exact C2_sort_dag_topological (by decide) hcl hacy

/-- The C10 counterexample graph is acyclic. -/
theorem gC10_acyclic : AcyclicG gC10 := by
  refine acyclicG_of_rank (fun n => if n = 0 then 2 else if n = 2 then 1 else 0) ?_
  rintro m d ⟨hm, hd⟩
  have hm2 : m = 0 ∨ m = 1 ∨ m = 2 := by simpa [gC10] using hm
  rcases hm2 with rfl | rfl | rfl
  · have he : effDeps gC10 0 = [1, 2] := rfl
    rw [he] at hd
    have : d = 1 ∨ d = 2 := by simpa using hd
    rcases this with rfl | rfl <;> decide
  · have he : effDeps gC10 1 = [] := rfl
    rw [he] at hd
    cases hd
  · have he : effDeps gC10 2 = [1] := rfl
    rw [he] at hd
    obtain rfl : d = 1 := List.mem_singleton.mp hd
    decide

/-- C10: every node reachable from the targets of an acyclic graph appears
in the all_nodes list of the traversal and in the sorted list.  Amended:
the original claim says exactly once; the traversal can push a node twice
before first visiting it and then records it twice, so only at least one
occurrence holds — see the counterexample. -/
theorem C10_reachable_at_least_once {g : BGraph} {targets : List Nat}
    (hwf : GraphWF g) (hts : ∀ x ∈ targets, x ∈ g.univ) (hacy : AcyclicG g) :
    ∃ allNodes eds ordered,
      traverse_node_graph g targets = some (allNodes, eds) ∧
      sort_dag allNodes eds = some (Except.ok ordered) ∧
      ∀ n, Reaches g targets n → 1 ≤ allNodes.count n ∧ 1 ≤ ordered.count n := by
  obtain ⟨allNodes, eds, htr, hmem, hed, hedempty, huniv⟩ := traverse_node_graph_spec hwf hts
  have hcl : ∀ m, ∀ d ∈ eds m, d ∈ allNodes := by
    intro m d hd
    by_cases hm : m ∈ allNodes
    · exact (hmem d).mpr (Reaches.step ((hmem m).mp hm) ((hed m hm d).mp hd))
    · rw [hedempty m hm] at hd; cases hd
  obtain ⟨ordered, hsort, hcov, _, _, _⟩ :=
    sort_dag_complete hcl (no_sedge_cycle huniv hed hacy)
  refine ⟨allNodes, eds, ordered, htr, hsort, ?_⟩
  intro n hr
  have h1 : n ∈ allNodes := (hmem n).mpr hr
  exact ⟨List.count_pos_iff.mpr h1, List.count_pos_iff.mpr (hcov n h1)⟩

/-- Witness for C10 on the diamond gC10. -/
theorem C10_reachable_at_least_once_witness :
    ∃ allNodes eds ordered,
      traverse_node_graph gC10 [0] = some (allNodes, eds) ∧
      sort_dag allNodes eds = some (Except.ok ordered) ∧
      ∀ n, Reaches gC10 [0] n → 1 ≤ allNodes.count n ∧ 1 ≤ ordered.count n :=
  C10_reachable_at_least_once (by decide) (by decide) gC10_acyclic

/-- Counterexample to the unamended C10: on the acyclic diamond gC10 the
reachable node 1 appears twice both in all_nodes and in the sorted list. -/
theorem C10_counterexample :
    gC10Run = some ([0, 2, 1, 1], [1, 2, 0, 1]) ∧
    AcyclicG gC10 ∧ Reaches gC10 [0] 1 ∧
    [0, 2, 1, 1].count 1 ≠ 1 ∧ [1, 2, 0, 1].count 1 ≠ 1 := by
  exact ⟨rfl, gC10_acyclic,
    @Reaches.step gC10 [0] 0 1 (Reaches.target (by decide)) (by decide),
    by decide, by decide⟩


/-! Closure properties of the two passes of get_to_build. -/

theorem topo_no_later_dep {L p s : List Nat} {v n : Nat} {edges : Nat → List Nat}
    (htopo : IsTopoOrder L edges) (hL : L = p ++ v :: s) (hnp : n ∈ p)
    (hvn : v ∈ edges n) : False := by
  subst hL
  obtain ⟨jp, hjp⟩ := List.mem_iff_get.mp hnp
  have hja := jp.isLt
  have hjlt : jp.val < (p ++ v :: s).length := by
    rw [List.length_append, List.length_cons]
    omega
  have hplt : p.length < (p ++ v :: s).length := by
    rw [List.length_append, List.length_cons]
    omega
  have hgetj : (p ++ v :: s).get ⟨jp.val, hjlt⟩ = n := by
    rw [List.get_eq_getElem]
    rw [List.getElem_append_left hja]
    exact hjp
  have hgeti : (p ++ v :: s).get ⟨p.length, hplt⟩ = v := by
    rw [List.get_eq_getElem]
    rw [List.getElem_append_right (le_refl p.length)]
    simp
  have hlt := htopo ⟨jp.val, hjlt⟩ v (by rw [hgetj]; exact hvn) ⟨p.length, hplt⟩ hgeti
  have : p.length < jp.val := hlt
  omega


theorem topo_no_later_dep_rev {L p s : List Nat} {v n : Nat} {edges : Nat → List Nat}
    (htopo : IsTopoOrder L edges) (hL : L.reverse = p ++ v :: s) (hnp : n ∈ p)
    (hnv : n ∈ edges v) : False := by
  obtain ⟨jp, hjp⟩ := List.mem_iff_get.mp hnp
  have hja := jp.isLt
  have hLL : L.length = p.length + (s.length + 1) := by
    rw [← List.length_reverse, hL, List.length_append, List.length_cons]
  have haR : jp.val < L.reverse.length := by
    rw [List.length_reverse]
    omega
  have hbR : p.length < L.reverse.length := by
    rw [List.length_reverse]
    omega
  have hrevA : L.reverse.get ⟨jp.val, haR⟩ = n := by
    rw [List.get_eq_getElem]
    rw [List.getElem_of_eq hL]
    rw [List.getElem_append_left hja]
    exact hjp
  have hrevB : L.reverse.get ⟨p.length, hbR⟩ = v := by
    rw [List.get_eq_getElem]
    rw [List.getElem_of_eq hL]
    rw [List.getElem_append_right (le_refl p.length)]
    simp
  have hAf : jp.val < p.length := hja
  have hgA : L.get ⟨L.length - 1 - jp.val, by omega⟩ = n := by
    rw [List.get_eq_getElem]
    rw [← List.getElem_reverse haR]
    exact hrevA
  have hgB : L.get ⟨L.length - 1 - p.length, by omega⟩ = v := by
    rw [List.get_eq_getElem]
    rw [← List.getElem_reverse hbR]
    exact hrevB
  have hlt := htopo ⟨L.length - 1 - p.length, by omega⟩ n (by rw [hgB]; exact hnv)
    ⟨L.length - 1 - jp.val, by omega⟩ hgA
  have : L.length - 1 - jp.val < L.length - 1 - p.length := hlt
  omega

theorem downward_pass_closed {ordered : List Nat} {edges : Nat → List Nat}
    {init : List Nat} (htopo : IsTopoOrder ordered edges) :
    ∀ n ∈ ordered, (∃ d ∈ edges n, d ∈ downward_pass ordered edges init) →
      n ∈ downward_pass ordered edges init := by
  unfold downward_pass
  refine foldl_prefix_invariant
    (I := fun p tb => ∀ n ∈ p, (∃ d ∈ edges n, d ∈ tb) → n ∈ tb) ?_ ordered [] init rfl
    (fun n hn => absurd hn (List.not_mem_nil n))
  intro p v s tb hL hI n hn hex
  obtain ⟨d, hd, hdtb⟩ := hex
  by_cases hany : (edges v).any (fun d2 => decide (d2 ∈ tb)) = true
  · rw [if_pos hany] at hdtb ⊢
    rcases List.mem_append.mp hn with hnp | hnv
    · rcases mem_pyInsert.mp hdtb with hdtb2 | rfl
      · exact subset_pyInsert tb v (hI n hnp ⟨d, hd, hdtb2⟩)
      · exact absurd (topo_no_later_dep htopo hL hnp hd) (fun h => h)
    · obtain rfl : n = v := List.mem_singleton.mp hnv
      exact mem_pyInsert.mpr (Or.inr rfl)
  · rw [if_neg hany] at hdtb ⊢
    rcases List.mem_append.mp hn with hnp | hnv
    · exact hI n hnp ⟨d, hd, hdtb⟩
    · obtain rfl : n = v := List.mem_singleton.mp hnv
      exact absurd (List.any_eq_true.mpr ⟨d, hd, by simpa using hdtb⟩) hany

theorem upward_pass_closed {ordered : List Nat} {edges : Nat → List Nat}
    {ie : Nat → Bool} {tb0 : List Nat} (htopo : IsTopoOrder ordered edges) :
    ∀ n ∈ ordered, n ∈ upward_pass ordered edges ie tb0 →
      ∀ d ∈ edges n, ie d = false → d ∈ upward_pass ordered edges ie tb0 := by
  have key : ∀ n ∈ ordered.reverse, n ∈ upward_pass ordered edges ie tb0 →
      ∀ d ∈ edges n, ie d = false → d ∈ upward_pass ordered edges ie tb0 := by
    unfold upward_pass
    refine foldl_prefix_invariant
      (I := fun p tb => ∀ n ∈ p, n ∈ tb → ∀ d ∈ edges n, ie d = false → d ∈ tb) ?_
      ordered.reverse [] tb0 rfl (fun n hn => absurd hn (List.not_mem_nil n))
    intro p v s tb hL hI n hn hntb d hd hie
    by_cases hv : v ∈ tb
    · rw [if_pos hv] at hntb ⊢
      rcases List.mem_append.mp hn with hnp | hnv
      · rcases mem_pyInsertAll.mp hntb with hntb2 | hnfil
        · exact mem_pyInsertAll.mpr (Or.inl (hI n hnp hntb2 d hd hie))
        · have hnev : n ∈ edges v := List.mem_of_mem_filter hnfil
          exact absurd (topo_no_later_dep_rev htopo hL hnp hnev) (fun h => h)
      · obtain rfl : n = v := List.mem_singleton.mp hnv
        refine mem_pyInsertAll.mpr (Or.inr (List.mem_filter.mpr ⟨hd, ?_⟩))
        simp [hie]
    · rw [if_neg hv] at hntb ⊢
      rcases List.mem_append.mp hn with hnp | hnv
      · exact hI n hnp hntb d hd hie
      · obtain rfl : n = v := List.mem_singleton.mp hnv
        exact absurd hntb hv
  intro n hn
  exact key n (List.mem_reverse.mpr hn)

/-- C4: for a PreparedBuild whose node list is topologically ordered (with
edges and out-of-date set inside the node list), get_to_build contains
every out-of-date node; the downward-pass set is closed under taking a
node any of whose dependencies is in it; and the returned set is closed
under adding the non-entry dependencies of its members. -/
theorem C4_get_to_build_passes {pb : PreparedBuildM} {ie : Nat → Bool}
    (htopo : IsTopoOrder pb.ordered_nodes pb.edges)
    (hcl : ∀ m ∈ pb.ordered_nodes, ∀ d ∈ pb.edges m, d ∈ pb.ordered_nodes)
    (hood : ∀ x ∈ pb.out_of_date, x ∈ pb.ordered_nodes) :
    (∀ x ∈ pb.out_of_date, x ∈ get_to_build pb ie) ∧
    (∀ n ∈ pb.ordered_nodes,
      (∃ d ∈ pb.edges n, d ∈ downward_pass pb.ordered_nodes pb.edges pb.out_of_date) →
      n ∈ downward_pass pb.ordered_nodes pb.edges pb.out_of_date) ∧
    (∀ n ∈ get_to_build pb ie, ∀ d ∈ pb.edges n, ie d = false → d ∈ get_to_build pb ie) := by
  have hdsub : ∀ (tb : List Nat) (n : Nat), tb ⊆
      (if (pb.edges n).any (fun d => decide (d ∈ tb)) then pyInsert tb n else tb) := by
    intro tb n
    by_cases h : (pb.edges n).any (fun d => decide (d ∈ tb)) = true
    · rw [if_pos h]; exact subset_pyInsert tb n
    · rw [if_neg h]; exact fun x hx => hx
  have husub : ∀ (tb : List Nat) (n : Nat), tb ⊆
      (if n ∈ tb then pyInsertAll tb ((pb.edges n).filter (fun d => ! ie d)) else tb) := by
    intro tb n
    by_cases h : n ∈ tb
    · rw [if_pos h]; exact fun x hx => mem_pyInsertAll.mpr (Or.inl hx)
    · rw [if_neg h]; exact fun x hx => hx
  have hdmono : pb.out_of_date ⊆ downward_pass pb.ordered_nodes pb.edges pb.out_of_date := by
    unfold downward_pass
    exact foldl_subset hdsub pb.ordered_nodes pb.out_of_date
  have humono : downward_pass pb.ordered_nodes pb.edges pb.out_of_date ⊆
      get_to_build pb ie := by
    unfold get_to_build upward_pass
    exact foldl_subset husub pb.ordered_nodes.reverse _
  have hdorig : ∀ x ∈ downward_pass pb.ordered_nodes pb.edges pb.out_of_date,
      x ∈ pb.ordered_nodes := by
    intro x hx
    unfold downward_pass at hx
    have := foldl_origin (P := fun n x2 => x2 = n)
      (fun tb n x2 hx2 => by
        by_cases h : (pb.edges n).any (fun d => decide (d ∈ tb)) = true
        · rw [if_pos h] at hx2
          exact mem_pyInsert.mp hx2
        · rw [if_neg h] at hx2
          exact Or.inl hx2) pb.ordered_nodes pb.out_of_date x hx
    rcases this with h | ⟨n, hn, rfl⟩
    · exact hood x h
    · exact hn
  have hsorig : ∀ x ∈ get_to_build pb ie, x ∈ pb.ordered_nodes := by
    intro x hx
    unfold get_to_build upward_pass at hx
    have := foldl_origin (P := fun n x2 => x2 ∈ (pb.edges n).filter (fun d => ! ie d))
      (fun tb n x2 hx2 => by
        by_cases h : n ∈ tb
        · rw [if_pos h] at hx2
          exact mem_pyInsertAll.mp hx2
        · rw [if_neg h] at hx2
          exact Or.inl hx2) pb.ordered_nodes.reverse _ x hx
    rcases this with h | ⟨n, hn, hfil⟩
    · exact hdorig x h
    · exact hcl n (List.mem_reverse.mp hn) x (List.mem_of_mem_filter hfil)
  refine ⟨fun x hx => humono (hdmono hx), downward_pass_closed htopo, ?_⟩
  intro n hn d hd hie
  exact upward_pass_closed htopo n (hsorig n hn) hn d hd hie

/-- Witness for C4 on the concrete PreparedBuild pbW4 with entry predicate
ieW4. -/
theorem C4_get_to_build_passes_witness :
    (∀ x ∈ pbW4.out_of_date, x ∈ get_to_build pbW4 ieW4) ∧
    (∀ n ∈ pbW4.ordered_nodes,
      (∃ d ∈ pbW4.edges n, d ∈ downward_pass pbW4.ordered_nodes pbW4.edges pbW4.out_of_date) →
      n ∈ downward_pass pbW4.ordered_nodes pbW4.edges pbW4.out_of_date) ∧
    (∀ n ∈ get_to_build pbW4 ieW4, ∀ d ∈ pbW4.edges n, ieW4 d = false →
      d ∈ get_to_build pbW4 ieW4) :=
  C4_get_to_build_passes (by decide) (by decide) (by decide)

/-- C5: for every reachable node, the recorded out-edge set of the
traversal consists exactly of the union of its own depends, its builder
dependencies when it has a builder, and the depends of every sibling
output of that builder. -/
theorem C5_effective_edges {g : BGraph} {targets : List Nat}
    (hwf : GraphWF g) (hts : ∀ x ∈ targets, x ∈ g.univ) :
    ∃ allNodes eds, traverse_node_graph g targets = some (allNodes, eds) ∧
      ∀ n, Reaches g targets n → ∀ y,
        (y ∈ eds n ↔
          (y ∈ g.depends n ∨ ∃ b, g.builder n = some b ∧
            (y ∈ g.builderDeps b ∨ ∃ s ∈ g.builds b, y ∈ g.depends s))) := by
  obtain ⟨allNodes, eds, htr, hmem, hed, _, _⟩ := traverse_node_graph_spec hwf hts
  refine ⟨allNodes, eds, htr, ?_⟩
  intro n hr y
  rw [hed n ((hmem n).mpr hr) y]
  exact mem_effDeps

/-- Witness for C5 on the multi-output builder graph gW5. -/
theorem C5_effective_edges_witness :
    ∃ allNodes eds, traverse_node_graph gW5 [0] = some (allNodes, eds) ∧
      ∀ n, Reaches gW5 [0] n → ∀ y,
        (y ∈ eds n ↔
          (y ∈ gW5.depends n ∨ ∃ b, gW5.builder n = some b ∧
            (y ∈ gW5.builderDeps b ∨ ∃ s ∈ gW5.builds b, y ∈ gW5.depends s))) :=
  C5_effective_edges (by decide) (by decide)

/-- C6: in the serial scheduler loop, each builder appears at most once in
the invocation trace: after one invocation every sibling output is marked
built and triggers no further invocation.  The hypothesis is the
registration invariant that every node with a builder is among that
builder's outputs. -/
theorem C6_builder_invoked_once {g : BGraph} {ordered toBuild : List Nat}
    (hreg : ∀ n b, g.builder n = some b → n ∈ g.builds b) :
    (serial_build g ordered toBuild).Nodup ∧
    ∀ b, (serial_build g ordered toBuild).count b ≤ 1 := by
  have hstep : ∀ (st : List Nat × List Nat) (node : Nat),
      (st.2.Nodup ∧ ∀ b ∈ st.2, ∀ x ∈ g.builds b, x ∈ st.1) →
      ((match g.builder node with
        | none => st
        | some b =>
          if node ∈ toBuild ∧ node ∉ st.1 then (pyInsertAll st.1 (g.builds b), st.2 ++ [b])
          else st) : List Nat × List Nat).2.Nodup ∧
      ∀ b ∈ (match g.builder node with
        | none => st
        | some b =>
          if node ∈ toBuild ∧ node ∉ st.1 then (pyInsertAll st.1 (g.builds b), st.2 ++ [b])
          else st).2, ∀ x ∈ g.builds b,
        x ∈ (match g.builder node with
        | none => st
        | some b =>
          if node ∈ toBuild ∧ node ∉ st.1 then (pyInsertAll st.1 (g.builds b), st.2 ++ [b])
          else st).1 := by
    intro st node hI
    cases hb : g.builder node with
    | none => exact hI
    | some b =>
      have hgoal : ∀ st2 : List Nat × List Nat,
          st2 = (if node ∈ toBuild ∧ node ∉ st.1 then
            (pyInsertAll st.1 (g.builds b), st.2 ++ [b]) else st) →
          (st2.2.Nodup ∧ ∀ b2 ∈ st2.2, ∀ x ∈ g.builds b2, x ∈ st2.1) := by
        intro st2 hst2
        by_cases hc : node ∈ toBuild ∧ node ∉ st.1
        · rw [if_pos hc] at hst2
          subst hst2
          have hbnot : b ∉ st.2 := by
            intro hbin
            exact hc.2 (hI.2 b hbin node (hreg node b hb))
          constructor
          · refine List.Nodup.append hI.1 (List.nodup_singleton b) ?_
            intro a ha hab
            exact hbnot ((List.mem_singleton.mp hab) ▸ ha)
          · intro b2 hb2 x hx
            rcases List.mem_append.mp hb2 with hb2 | hb2
            · exact mem_pyInsertAll.mpr (Or.inl (hI.2 b2 hb2 x hx))
            · obtain rfl : b2 = b := List.mem_singleton.mp hb2
              exact mem_pyInsertAll.mpr (Or.inr hx)
        · rw [if_neg hc] at hst2
          subst hst2
          exact hI
      exact hgoal _ rfl
  have hres := foldl_state_pres hstep ordered ([], [])
    ⟨List.nodup_nil, fun b hb => absurd hb (List.not_mem_nil b)⟩
  have hnd : (serial_build g ordered toBuild).Nodup := hres.1
  exact ⟨hnd, fun b => List.nodup_iff_count_le_one.mp hnd b⟩

/-- Witness for C6: with both siblings 0 and 3 of builder 0 in to_build,
the serial trace invokes the builder exactly once. -/
theorem C6_builder_invoked_once_witness :
    (serial_build gW5 [1, 2, 0, 3] [0, 3]).Nodup ∧
    ∀ b, (serial_build gW5 [1, 2, 0, 3] [0, 3]).count b ≤ 1 := by
  refine C6_builder_invoked_once ?_
  intro n b h
  have hb : (if n = 0 ∨ n = 3 then some 0 else none) = some b := h
  by_cases hn : n = 0 ∨ n = 3
  · rw [if_pos hn] at hb
    obtain rfl : (0 : Nat) = b := Option.some.inj hb
    show n ∈ gW5.builds 0
    rcases hn with rfl | rfl <;> decide
  · rw [if_neg hn] at hb
    cases hb

/-- A select after an INSERT OR REPLACE returns the stored signature. -/
theorem select_after_replace (store : Store) (path meta : String) :
    select_metadata ((store.filter (fun r => decide (r.1 ≠ path))) ++ [(path, meta)])
      path = some meta := by
  induction store with
  | nil => simp [select_metadata]
  | cons r rs ih =>
    by_cases hr : r.1 = path
    · have hfil : (r :: rs).filter (fun q => decide (q.1 ≠ path)) =
          rs.filter (fun q => decide (q.1 ≠ path)) := by
        rw [List.filter_cons]
        simp [hr]
      rw [hfil]
      exact ih
    · have hfil : (r :: rs).filter (fun q => decide (q.1 ≠ path)) =
          r :: rs.filter (fun q => decide (q.1 ≠ path)) := by
        rw [List.filter_cons]
        simp [hr]
      rw [hfil]
      show ((r :: (rs.filter (fun q => decide (q.1 ≠ path)) ++ [(path, meta)])).find?
        (fun q => q.1 == path)).map Prod.snd = some meta
      rw [List.find?_cons_of_neg _ (by simp [hr])]
      exact ih

/-- C7: the claim that put is an upsert fails for the __init__.py copy of
_set_metadata: its INSERT OR UPDATE statement is not part of the SQLite
conflict-clause grammar, so sqlite3 raises OperationalError on every call
whatever the prior store state (spec section 9 flags this); the
execution.py copy is a correct upsert whose subsequent select returns the
stored signature.  Recorded as a code bug. -/
theorem C7_put_not_upsert :
    (∀ store path meta, init_set_metadata store path meta =
      Except.error (PyErr.operationalError "near \"UPDATE\": syntax error")) ∧
    (∀ store path meta, ∃ store2,
      execution_set_metadata store path meta = Except.ok store2 ∧
      select_metadata store2 path = some meta) :=
  ⟨fun _ _ _ => rfl,
    fun store path meta => ⟨_, rfl, select_after_replace store path meta⟩⟩

/-- C8: a string target that names no alias and resolves to a path with no
registered entry makes prepare_build raise a bare KeyError (the dict
subscript of _args_to_nodes), not the DependencyError promised by the
spec.  Recorded as a code bug. -/
theorem C8_unknown_target_raises_keyerror :
    prepare_build_from_args 0 gW1 dbEmpty envC8 (TargetArg.strArg "out.txt") =
      some (Except.error PyErr.keyError) ∧
    (∀ msg, PyErr.keyError ≠ PyErr.dependencyError msg) :=
  ⟨rfl, fun _ h => PyErr.noConfusion h⟩

/-! The builder-registration membership invariant. -/

theorem regBind_pres {st : RegState} {b2 e : Nat}
    (hI : ∀ m c, st.builderOf m = some c → m ∈ st.builds c) :
    ∀ m c, (Function.update st.builderOf e (some b2)) m = some c →
      m ∈ (Function.update st.builds b2 (st.builds b2 ++ [e])) c := by
  intro m c hm
  by_cases hme : m = e
  · subst hme
    rw [Function.update_same] at hm
    obtain rfl : b2 = c := Option.some.inj hm
    rw [Function.update_same]
    exact List.mem_append_right _ (List.mem_singleton.mpr rfl)
  · rw [Function.update_noteq hme] at hm
    have hmem := hI m c hm
    by_cases hcb : c = b2
    · subst hcb
      rw [Function.update_same]
      exact List.mem_append_left _ hmem
    · rw [Function.update_noteq hcb]
      exact hmem

theorem resolveLoop_pres {env : RegEnv} :
    ∀ (es : List Nat) (b2 : Nat) (st : RegState),
      (∀ m c, st.builderOf m = some c → m ∈ st.builds c) →
      ∀ m c, (resolveLoop env b2 st es).1.builderOf m = some c →
        m ∈ (resolveLoop env b2 st es).1.builds c := by
  intro es
  induction es with
  | nil => exact fun b2 st hI => hI
  | cons e es2 ih =>
    intro b2 st hI m c
    by_cases hk : env.kind e = EKind.notEntry
    · have heq : resolveLoop env b2 st (e :: es2) =
          (st, some (PyErr.typeError "Builder get_target() must return Files or Dirs")) := by
        simp only [resolveLoop]
        rw [if_pos hk]
      rw [heq]
      exact hI m c
    · cases hb0 : st.builderOf e with
      | none =>
        have heq : resolveLoop env b2 st (e :: es2) =
            resolveLoop env b2
              { st with
                builderOf := Function.update st.builderOf e (some b2)
                builds := Function.update st.builds b2 (st.builds b2 ++ [e]) } es2 := by
          simp only [resolveLoop]
          rw [if_neg hk, hb0]
        rw [heq]
        exact ih b2 _ (fun m2 c2 hm2 => regBind_pres hI m2 c2 hm2) m c
      | some b0 =>
        have hmid : resolveLoop env b2 st (e :: es2) =
            (if b0 ≠ b2 then (st, some (PyErr.valueError "already being built"))
             else
               resolveLoop env b2
                 { st with
                   builderOf := Function.update st.builderOf e (some b2)
                   builds := Function.update st.builds b2 (st.builds b2 ++ [e]) } es2) := by
          simp only [resolveLoop]
          rw [if_neg hk, hb0]
        by_cases hbb : b0 ≠ b2
        · rw [hmid, if_pos hbb]
          exact hI m c
        · rw [hmid, if_neg hbb]
          exact ih b2 _ (fun m2 c2 hm2 => regBind_pres hI m2 c2 hm2) m c

theorem sideEffectLoop_pres {env : RegEnv} :
    ∀ (es : List Nat) (b2 : Nat) (st : RegState),
      (∀ m c, st.builderOf m = some c → m ∈ st.builds c) →
      ∀ m c, (sideEffectLoop env b2 st es).1.builderOf m = some c →
        m ∈ (sideEffectLoop env b2 st es).1.builds c := by
  intro es
  induction es with
  | nil => exact fun b2 st hI => hI
  | cons e es2 ih =>
    intro b2 st hI m c
    cases hb0 : st.builderOf e with
    | none =>
      have heq : sideEffectLoop env b2 st (e :: es2) =
          sideEffectLoop env b2
            { st with
              builderOf := Function.update st.builderOf e (some b2)
              builds := Function.update st.builds b2 (st.builds b2 ++ [e]) } es2 := by
        simp only [sideEffectLoop]
        rw [hb0]
      rw [heq]
      exact ih b2 _ (fun m2 c2 hm2 => regBind_pres hI m2 c2 hm2) m c
    | some b0 =>
      have hmid : sideEffectLoop env b2 st (e :: es2) =
          (if b0 ≠ b2 then (st, some (PyErr.valueError "already being built"))
           else
             sideEffectLoop env b2
               { st with
                 builderOf := Function.update st.builderOf e (some b2)
                 builds := Function.update st.builds b2 (st.builds b2 ++ [e]) } es2) := by
        simp only [sideEffectLoop]
        rw [hb0]
      by_cases hbb : b0 ≠ b2
      · rw [hmid, if_pos hbb]
        exact hI m c
      · rw [hmid, if_neg hbb]
        exact ih b2 _ (fun m2 c2 hm2 => regBind_pres hI m2 c2 hm2) m c

theorem applyRegOp_pres {env : RegEnv} (st : RegState) (op : RegOp)
    (hI : ∀ m c, st.builderOf m = some c → m ∈ st.builds c) :
    ∀ m c, (applyRegOp env st op).builderOf m = some c →
      m ∈ (applyRegOp env st op).builds c := by
  cases op with
  | sideEffect b2 es => exact sideEffectLoop_pres es b2 st hI
  | resolve b2 decl =>
    cases hres : st.resolved b2 with
    | some l =>
      have heq : applyRegOp env st (RegOp.resolve b2 decl) = st := by
        simp only [applyRegOp]
        rw [hres]
      rw [heq]
      exact hI
    | none =>
      cases decl with
      | singleEntry x =>
        have heq : applyRegOp env st (RegOp.resolve b2 (TargetsDecl.singleEntry x)) =
            { st with resolved := Function.update st.resolved b2 (some []) } := by
          simp only [applyRegOp]
          rw [hres]
          rw [if_neg (fun h => Bool.noConfusion h.1)]
          rfl
        rw [heq]
        exact hI
      | many l =>
        rcases hrl : resolveLoop env b2 st l with ⟨st1, err⟩
        have hI1 : ∀ m c, st1.builderOf m = some c → m ∈ st1.builds c := by
          have hx := @resolveLoop_pres env l b2 st hI
          rw [hrl] at hx
          exact hx
        by_cases hdir : ((l.any (fun e => decide (env.kind e = EKind.dir))) = true) ∧
            l.length ≠ 1
        · have heq : applyRegOp env st (RegOp.resolve b2 (TargetsDecl.many l)) = st := by
            simp only [applyRegOp]
            rw [hres]
            rw [if_pos hdir]
          rw [heq]
          exact hI
        · cases err with
          | none =>
            have heq : applyRegOp env st (RegOp.resolve b2 (TargetsDecl.many l)) =
                { st1 with resolved := Function.update st1.resolved b2 (some l) } := by
              simp only [applyRegOp]
              rw [hres]
              rw [if_neg hdir]
              rw [hrl]
            rw [heq]
            exact hI1
          | some e2 =>
            have heq : applyRegOp env st (RegOp.resolve b2 (TargetsDecl.many l)) = st1 := by
              simp only [applyRegOp]
              rw [hres]
              rw [if_neg hdir]
              rw [hrl]
            rw [heq]
            exact hI1

/-- C9: after any sequence of registrations from the initial state, every
node whose builder field is some builder is a member of that builder's
builds list.  Amended: the original claim additionally asserts that the
builds list has no duplicates, which fails because side_effect appends the
entry unconditionally on repeated calls — see the counterexample. -/
theorem C9_registration_membership {env : RegEnv} {ops : List RegOp} (n b : Nat)
    (h : (applyRegOps env regInit ops).builderOf n = some b) :
    n ∈ (applyRegOps env regInit ops).builds b := by
  have hres := foldl_state_pres (f := applyRegOp env)
    (I := fun st => ∀ m c, st.builderOf m = some c → m ∈ st.builds c)
    (fun st op hI => applyRegOp_pres st op hI) ops regInit
    (fun m c hm => Option.noConfusion hm)
  exact hres n b h

/-- Witness for C9: registering builder 5 for entries 1 and 2 puts 1 into
builds 5. -/
theorem C9_registration_membership_witness :
    1 ∈ (applyRegOps envAllFiles regInit
      [RegOp.resolve 5 (TargetsDecl.many [1, 2])]).builds 5 :=
  C9_registration_membership 1 5 (by decide)

/-- Counterexample to the no-duplicates half of C9: calling side_effect
twice for the same builder and entry leaves builds 5 = [1, 1]. -/
theorem C9_counterexample :
    (applyRegOps envAllFiles regInit
      [RegOp.sideEffect 5 [1], RegOp.sideEffect 5 [1]]).builderOf 1 = some 5 ∧
    (applyRegOps envAllFiles regInit
      [RegOp.sideEffect 5 [1], RegOp.sideEffect 5 [1]]).builds 5 = [1, 1] ∧
    ¬ ((applyRegOps envAllFiles regInit
      [RegOp.sideEffect 5 [1], RegOp.sideEffect 5 [1]]).builds 5).Nodup := by
  refine ⟨by decide, by decide, ?_⟩
  intro hnd
  have : (applyRegOps envAllFiles regInit
      [RegOp.sideEffect 5 [1], RegOp.sideEffect 5 [1]]).builds 5 = [1, 1] := by decide
  rw [this] at hnd
  exact (List.nodup_cons.mp hnd).1 (List.mem_singleton.mpr rfl)
